import Mathlib

/-!
Verification of the sparsified iterative Damerau-Levenshtein calculator
(`src/sparsified-iterative-dl.ts`) and its naive reference oracle
(`src/baseline-dl.ts`).

Costs stored in the JS `number` matrices are modelled as `ℕ∞`:
`Number.MAX_VALUE` is the sentinel `⊤`, and every addition performed by the
source on a sentinel keeps it saturated (in JS, `Number.MAX_VALUE + k` rounds
back to `Number.MAX_VALUE` for every small `k`), matching `⊤ + k = ⊤`.
-/

namespace SparseDL

/-- Costs: finite naturals, with `⊤` playing the role of `Number.MAX_VALUE`. -/
abbrev Cost : Type := ℕ∞

/-- Integer-indexed list lookup; a negative index is absent (JS `arr[-1]` is `undefined`). -/
def listGetZ (l : List α) (i : ℤ) : Option α :=
  if 0 ≤ i then l[i.toNat]? else none

/-- JS `Array.prototype.lastIndexOf(x, fromIndex)`: backwards search starting at
`fromIndex`.  The element is an `Option` so that a lookup of `undefined`
(an out-of-range character read) never matches anything, as in JS. -/
def lastIdxOf [DecidableEq α] (l : List α) (x : Option α) : ℕ → ℤ
  | 0 => if l[0]? = x ∧ x ≠ none then 0 else -1
  | f+1 => if l[f+1]? = x ∧ x ≠ none then ((f : ℤ) + 1) else lastIdxOf l x f

/-- Helper for `idxOfFrom`: scan upward with the remaining-count as fuel. -/
def idxOfFromAux [DecidableEq α] (l : List α) (x : Option α) : ℕ → ℕ → ℤ
  | 0, _ => -1
  | k+1, i => if l[i]? = x ∧ x ≠ none then (i : ℤ) else idxOfFromAux l x k (i+1)

/-- JS `Array.prototype.indexOf(x, fromIndex)`: first index `≥ fromIndex` holding `x`. -/
def idxOfFrom [DecidableEq α] (l : List α) (x : Option α) (f : ℕ) : ℤ :=
  idxOfFromAux l x (l.length - f) f

/-- The state of `SparsifiedIterativeDamerauLevenshteinCalculation`. -/
structure Calc where
  resolvedDistances : List (List Cost)
  diagonalWidth : ℕ
  inputSequence : List Char
  matchSequence : List Char
deriving DecidableEq

/-- `getTrueIndex` + `getCostAt` with an explicit `width` argument
(source lines 71-99).  Virtual cells: row `-1` reads `j+1`, column `-1` reads
`i+1`, anything further out or off the band reads the sentinel. -/
def getCostAtW (S : Calc) (width : ℕ) (i j : ℤ) : Cost :=
  if i < 0 ∨ j < 0 then
    if i = -1 ∧ -1 ≤ j then (((j+1).toNat : ℕ) : Cost)
    else if j = -1 ∧ -1 ≤ i then (((i+1).toNat : ℕ) : Cost)
    else ⊤
  else if j - i + (width:ℤ) < 0 ∨ 2 * (width : ℤ) < j - i + width then ⊤
  else ((S.resolvedDistances[i.toNat]?).bind
          (fun row => row[(j - i + (width:ℤ)).toNat]?)).getD ⊤

/-- `getCostAt` with the default width (`this.diagonalWidth`). -/
def getCostAt (S : Calc) (i j : ℤ) : Cost := getCostAtW S S.diagonalWidth i j

/-- JS `x || d` for the optional cost overrides of `initialCostAt` (`0` is falsy). -/
def jsOr (x : Option Cost) (d : Cost) : Cost :=
  match x with
  | none => d
  | some v => if v = 0 then d else v

/-- `initialCostAt` (source lines 160-175). -/
def initialCostAt (buffer : Calc) (r c : ℕ) (insertCost deleteCost : Option Cost) : Cost :=
  let baseSubstitutionCost : Cost :=
    if buffer.inputSequence[r]? = buffer.matchSequence[c]? then 0 else 1
  let substitutionCost : Cost := getCostAt buffer ((r:ℤ)-1) ((c:ℤ)-1) + baseSubstitutionCost
  let insertionCost : Cost := jsOr insertCost (getCostAt buffer (r:ℤ) ((c:ℤ)-1) + 1)
  let deletionCost : Cost := jsOr deleteCost (getCostAt buffer ((r:ℤ)-1) (c:ℤ) + 1)
  let transpositionCost : Cost :=
    if 0 < r ∧ 0 < c then
      let lastInputIndex : ℤ := lastIdxOf buffer.inputSequence buffer.matchSequence[c]? (r-1)
      let lastMatchIndex : ℤ := lastIdxOf buffer.matchSequence buffer.inputSequence[r]? (c-1)
      getCostAt buffer (lastInputIndex - 1) (lastMatchIndex - 1) +
        ((((r:ℤ) - lastInputIndex - 1).toNat + 1 + (((c:ℤ) - lastMatchIndex - 1).toNat) : ℕ) : Cost)
    else ⊤
  min substitutionCost (min deletionCost (min insertionCost transpositionCost))

/-- Write one matrix cell (in-place array store in the source). -/
def setCell (rows : List (List Cost)) (r idx : ℕ) (v : Cost) : List (List Cost) :=
  rows.set r ((rows.getD r []).set idx v)

/-- The fill loop of `addInputChar` (source lines 200-205); `cIdx` is the index
inside the row's diagonal array, the second argument counts remaining cells. -/
def fillRowLoop (r : ℕ) : ℕ → ℕ → Calc → Calc
  | _, 0, S => S
  | cIdx, Nat.succ k, S =>
    let trueColIndex : ℤ := (cIdx : ℤ) + r - S.diagonalWidth
    let v := initialCostAt S r trueColIndex.toNat none none
    fillRowLoop r (cIdx+1) k
      { S with resolvedDistances := setCell S.resolvedDistances r cIdx v }

/-- `addInputChar` (source lines 178-208). -/
def addInputChar (S : Calc) (ch : Char) : Calc :=
  let r := S.inputSequence.length
  let w := S.diagonalWidth
  let S1 : Calc := { S with
    inputSequence := S.inputSequence ++ [ch],
    resolvedDistances := S.resolvedDistances ++ [List.replicate (2*w+1) ⊤] }
  if S1.matchSequence.length = 0 then S1
  else
    let c0 : ℕ := w - r
    let cMax : ℤ := min (2*(w:ℤ)) ((S1.matchSequence.length : ℤ) - r - 1 + w)
    fillRowLoop r c0 (cMax - c0 + 1).toNat S1

/-- The fill loop of `addMatchChar` (source lines 227-232). -/
def fillColLoop (c : ℕ) : ℕ → ℕ → Calc → Calc
  | _, 0, S => S
  | r, Nat.succ k, S =>
    let cIndexInRow : ℤ := (c:ℤ) - r + S.diagonalWidth
    let v := initialCostAt S r c none none
    fillColLoop c (r+1) k
      { S with resolvedDistances := setCell S.resolvedDistances r cIndexInRow.toNat v }

/-- `addMatchChar` (source lines 210-235). -/
def addMatchChar (S : Calc) (ch : Char) : Calc :=
  let c := S.matchSequence.length
  let S1 : Calc := { S with matchSequence := S.matchSequence ++ [ch] }
  if S1.inputSequence.length = 0 then S1
  else
    let r0 : ℕ := c - S.diagonalWidth
    let rMax : ℤ := min ((S1.inputSequence.length : ℤ) - 1) ((c:ℤ) + S.diagonalWidth)
    fillColLoop c r0 (rMax - r0 + 1).toNat S1

/-- `propagateUpdateFrom` (source lines 338-377), with explicit fuel: the JS
recursion has no structural measure, so the model consumes one unit of fuel per
call and returns `none` when fuel runs out.  A read of an absent row or an
absent array slot mirrors JS `value < undefined` being false (early return). -/
def propagateUpdateFrom : ℕ → Calc → ℤ → ℤ → Cost → ℤ → Option Calc
  | 0, _, _, _, _, _ => none
  | Nat.succ fuel, buffer, r, c, value, diagonalIndex =>
    match (if 0 ≤ r then buffer.resolvedDistances[r.toNat]? else none) with
    | none => some buffer
    | some row =>
      match (if 0 ≤ diagonalIndex then row[diagonalIndex.toNat]? else none) with
      | none => some buffer
      | some stored =>
        if value < stored then
          let B : Calc := { buffer with
            resolvedDistances :=
              buffer.resolvedDistances.set r.toNat (row.set diagonalIndex.toNat value) }
          (if diagonalIndex < 2*((B.diagonalWidth:ℤ) - 1) ∧ c < (B.matchSequence.length : ℤ) - 1 then
              propagateUpdateFrom fuel B r (c+1) (value+1) (diagonalIndex+1)
            else some B).bind fun B1 =>
          (if 0 < diagonalIndex ∧ r < (B.inputSequence.length : ℤ) - 1 then
              propagateUpdateFrom fuel B1 (r+1) c (value+1) (diagonalIndex-1)
            else some B1).bind fun B2 =>
          (if r < (B.inputSequence.length : ℤ) - 1 ∧ c < (B.matchSequence.length : ℤ) - 1 then
              let updateCost : Cost := value +
                (if listGetZ B.inputSequence (r+1) = listGetZ B.matchSequence (c+1) then 0 else 1)
              propagateUpdateFrom fuel B2 (r+1) (c+1) updateCost diagonalIndex
            else some B2).bind fun B3 =>
          (let nextInputIndex := idxOfFrom B.inputSequence (listGetZ B.matchSequence (c+1)) (r+2).toNat
           let nextMatchIndex := idxOfFrom B.matchSequence (listGetZ B.inputSequence (r+1)) (c+2).toNat
           if 0 < nextInputIndex ∧ 0 < nextMatchIndex then
             let transpositionCost : Cost := value +
               ((((nextInputIndex - r - 2).toNat + 1 + (nextMatchIndex - c - 2).toNat) : ℕ) : Cost)
             propagateUpdateFrom fuel B3 nextInputIndex nextMatchIndex transpositionCost
               ((B.diagonalWidth:ℤ) - 1 + nextMatchIndex - nextInputIndex)
           else some B3)
        else some buffer

/-- The iteration of `forPossibleTranspositionsInDiagonal` (source lines 246-259). -/
def forTransLoop (fuel startPos : ℕ) (fixedChar : Option Char) (lookup : List Char)
    (closure : ℕ → Calc → ℕ → ℕ → Option Calc) : ℕ → ℕ → Calc → Option Calc
  | _, 0, B => some B
  | diagIndex, Nat.succ k, B =>
    (if lookup[startPos + diagIndex]? = fixedChar ∧ fixedChar ≠ none then
        closure fuel B (startPos + diagIndex) diagIndex
      else some B).bind
      (forTransLoop fuel startPos fixedChar lookup closure (diagIndex+1) k)

/-- `forPossibleTranspositionsInDiagonal` (source lines 246-259): iterates
`diagonalIndex` from `0` to the capped bound and fires the closure at matches. -/
def forPossibleTrans (fuel : ℕ) (B : Calc) (startPos : ℕ) (fixedChar : Option Char)
    (lookup : List Char) (closure : ℕ → Calc → ℕ → ℕ → Option Calc) : Option Calc :=
  let diagonalCap : ℤ :=
    min (2*((B.diagonalWidth:ℤ) - 1)) ((lookup.length : ℤ) - 1 - startPos)
  forTransLoop fuel startPos fixedChar lookup closure 0 (diagonalCap + 1).toNat B

/-- The left-cell part of one row iteration of `increaseMaxDistance`
(source lines 262-292).  `wNew` is the already-incremented width. -/
def widenLeftBlock (fuel wNew r : ℕ) (B : Calc) : Option (Calc × Cost) :=
  if 0 ≤ (r:ℤ) - wNew then
    let c : ℕ := r - wNew
    let insertionCost : Cost := if c = 0 then (((r + 2 : ℕ)) : Cost) else ⊤
    let leftCell := initialCostAt B r c (some insertionCost) none
    (if (c:ℤ) < (B.matchSequence.length : ℤ) - 1 then
        (propagateUpdateFrom fuel B (r:ℤ) ((c:ℤ)+1) (leftCell+1) 0).bind fun B1 =>
        if (r:ℤ) + 2 < (B1.inputSequence.length : ℤ) then
          forPossibleTrans fuel B1 (c+3) (B1.inputSequence[r+1]?) B1.matchSequence
            (fun f B2 axisIndex diagIndex =>
              propagateUpdateFrom f B2 ((r:ℤ)+2) (axisIndex:ℤ)
                (leftCell + (((diagIndex + 2 : ℕ)) : Cost)) (diagIndex:ℤ))
        else some B1
      else some B).map (fun B1 => (B1, leftCell))
  else some (B, (⊤ : Cost))

/-- The right-cell part of one row iteration of `increaseMaxDistance`
(source lines 294-329). -/
def widenRightBlock (fuel wOld wNew r : ℕ) (B1 : Calc) : Option (Calc × Cost) :=
  let c : ℕ := r + wNew
  if (c:ℤ) < (B1.matchSequence.length : ℤ) then
    let deletionCost : Cost := if r = 0 then (((c + 2 : ℕ)) : Cost) else ⊤
    let insertionCost : Cost := getCostAtW B1 wOld (r:ℤ) ((c:ℤ)-1) + 1
    let rightCell := initialCostAt B1 r c (some insertionCost) (some deletionCost)
    (if (r:ℤ) < (B1.inputSequence.length : ℤ) - 1 then
        (propagateUpdateFrom fuel B1 ((r:ℤ)+1) (c:ℤ) (rightCell+1) (2*(wOld:ℤ))).bind fun B2 =>
        if (c:ℤ) + 2 < (B2.matchSequence.length : ℤ) then
          forPossibleTrans fuel B2 (r+3) (B2.matchSequence[r+1]?) B2.inputSequence
            (fun f B3 axisIndex diagIndex =>
              propagateUpdateFrom f B3 (axisIndex:ℤ) ((c:ℤ)+2)
                (rightCell + (((diagIndex + 2 : ℕ)) : Cost)) (2*((B3.diagonalWidth:ℤ) - 1) - diagIndex))
        else some B2
      else some B1).map (fun B2 => (B2, rightCell))
  else some (B1, (⊤ : Cost))

/-- One iteration of the row loop of `increaseMaxDistance` (source lines 261-333).
`wOld` is the captured `this.diagonalWidth` of the original snapshot; the state
`B` already carries the incremented width. -/
def widenRowStep (fuel wOld r : ℕ) (B : Calc) : Option Calc :=
  (widenLeftBlock fuel B.diagonalWidth r B).bind fun p =>
  (widenRightBlock fuel wOld B.diagonalWidth r p.1).bind fun q =>
  some { q.1 with
    resolvedDistances :=
      q.1.resolvedDistances.set r (p.2 :: q.1.resolvedDistances.getD r [] ++ [q.2]) }

/-- The row loop of `increaseMaxDistance`: second argument counts remaining rows. -/
def widenLoop (fuel wOld : ℕ) : ℕ → ℕ → Calc → Option Calc
  | _, 0, B => some B
  | r, Nat.succ k, B => (widenRowStep fuel wOld r B).bind (widenLoop fuel wOld (r+1) k)

/-- `increaseMaxDistance` (source lines 237-336). -/
def increaseMaxDistance (fuel : ℕ) (S : Calc) : Option Calc :=
  let S1 : Calc := { S with diagonalWidth := S.diagonalWidth + 1 }
  if S1.inputSequence.length < 1 ∨ S1.matchSequence.length < 1 then some S1
  else widenLoop fuel S.diagonalWidth 0 S1.inputSequence.length S1

/-- `getHeuristicFinalCost` (source lines 124-126). -/
def getHeuristicFinalCost (S : Calc) : Cost :=
  getCostAt S ((S.inputSequence.length : ℤ) - 1) ((S.matchSequence.length : ℤ) - 1)

/-- The widening loop of `getFinalCost` (source lines 108-119), fuelled by the
number of widenings still allowed (`pfuel` is the propagation fuel). -/
def getFinalCostAux (pfuel : ℕ) : ℕ → Calc → Option Cost
  | 0, _ => none
  | Nat.succ k, S =>
    let val := getHeuristicFinalCost S
    if val ≤ (S.diagonalWidth : Cost) then some val
    else (increaseMaxDistance pfuel S).bind (getFinalCostAux pfuel k)

/-- The loop of `hasFinalCostWithin` (source lines 135-158).  The fuel argument
is exactly `threshold - guaranteedBound`: the loop widens only while
`guaranteedBound < threshold`, and once `guaranteedBound ≥ threshold` both
remaining branches (the `guaranteedBound > max(m,n)` return and the `break`)
yield `false`. -/
def hasFinalCostWithinAux (pfuel t : ℕ) : ℕ → Calc → Option Bool
  | 0, S => some (decide (getHeuristicFinalCost S ≤ (t : Cost)))
  | Nat.succ k, S =>
    if getHeuristicFinalCost S ≤ (t : Cost) then some true
    else (increaseMaxDistance pfuel S).bind (hasFinalCostWithinAux pfuel t k)

/-- `hasFinalCostWithin` (source lines 135-158). -/
def hasFinalCostWithin (pfuel : ℕ) (S : Calc) (t : ℕ) : Option Bool :=
  hasFinalCostWithinAux pfuel t (t - S.diagonalWidth) S

/-- A fresh calculation (`new SparsifiedIterativeDamerauLevenshteinCalculation()`)
whose band half-width has been set to `w` (as the repository's tests do before
appending, and as the spec's `with_band` describes). -/
def emptyCalc (w : ℕ) : Calc :=
  { resolvedDistances := [], diagonalWidth := w, inputSequence := [], matchSequence := [] }

/-- One append instruction: either an input character or a match character. -/
inductive Op where
  | inp (c : Char)
  | mtc (c : Char)
deriving DecidableEq, Repr

/-- Apply an append instruction. -/
def applyOp (S : Calc) : Op → Calc
  | Op.inp c => addInputChar S c
  | Op.mtc c => addMatchChar S c

/-- Build a snapshot at width `w` by an arbitrary interleaving of appends. -/
def buildOps (w : ℕ) (L : List Op) : Calc := L.foldl applyOp (emptyCalc w)

/-- The input characters an instruction list appends, in order. -/
def opsInput : List Op → List Char
  | [] => []
  | Op.inp c :: L => c :: opsInput L
  | Op.mtc _ :: L => opsInput L

/-- The match characters an instruction list appends, in order. -/
def opsMatch : List Op → List Char
  | [] => []
  | Op.inp _ :: L => opsMatch L
  | Op.mtc c :: L => c :: opsMatch L

/-- The canonical build: all input characters, then all match characters. -/
def build (a b : List Char) (w : ℕ) : Calc :=
  buildOps w (a.map Op.inp ++ b.map Op.mtc)

/-! ### The naive reference implementation (`baseline-dl.ts`) -/

/-- The `EditDistanceCalculationBuffer` constructor (baseline source lines 7-44).
(The dead `distBuffer[1][0] = [Number.MAX_VALUE]` array element is modelled as
the sentinel; the source never reads it.) -/
def baselineInit (rows cols : ℕ) : List (List Cost) :=
  (List.replicate (cols+2) (⊤ : Cost)) ::
  ((⊤ : Cost) :: (List.range (cols+1)).map (fun c => ((c : ℕ) : Cost))) ::
  (List.range rows).map (fun k => [(⊤ : Cost), (((k+1 : ℕ)) : Cost)])

/-- `EditDistanceCalculationBuffer.getCostAt` (the `+2` shifted read). -/
def baseRead (buf : List (List Cost)) (i j : ℤ) : Cost :=
  match (if 0 ≤ i + 2 then buf[(i+2).toNat]? else none) with
  | none => ⊤
  | some row =>
    match (if 0 ≤ j + 2 then row[(j+2).toNat]? else none) with
    | none => ⊤
    | some v => v

/-- `setCostAt`: the JS write lands one past the end of the row (the inner loop
writes columns in order), so it is an append; out-of-order indices are padded. -/
def baseWrite (buf : List (List Cost)) (r idx : ℕ) (v : Cost) : List (List Cost) :=
  buf.set r
    (let row := buf.getD r []
     if row.length ≤ idx then row ++ List.replicate (idx - row.length) ⊤ ++ [v]
     else row.set idx v)

/-- The JS truthiness lookup `charLastPositionInStr[ch] || -1`: both a missing
key and a stored position `0` give `-1`. -/
def jsMapLookup (m : Char → Option ℕ) (ch : Char) : ℤ :=
  match m ch with
  | none => -1
  | some 0 => -1
  | some k => (k : ℤ)

/-- The inner column loop of `getDamerauLevenshteinEditDistance`
(baseline source lines 65-88); arguments: current column, remaining count,
`lastPositionInOther`, buffer. -/
def baseInner (str other : List Char) (da : Char → Option ℕ) (r : ℕ) :
    ℕ → ℕ → ℤ → List (List Cost) → List (List Cost)
  | _, 0, _, buf => buf
  | c, Nat.succ k, lastPositionInOther, buf =>
    let matched := str[r]? = other[c]?
    let substitutionEditCost : Cost := if matched then 0 else 1
    let prevIndexOfOtherCharInStr : ℤ :=
      match other[c]? with
      | none => -1
      | some ch => jsMapLookup da ch
    let prevIndexOfStrCharInOther : ℤ := lastPositionInOther
    let lastPos : ℤ := if matched then (c:ℤ) else lastPositionInOther
    let substitutionCost := baseRead buf ((r:ℤ)-1) ((c:ℤ)-1) + substitutionEditCost
    let insertionCost := baseRead buf (r:ℤ) ((c:ℤ)-1) + 1
    let deletionCost := baseRead buf ((r:ℤ)-1) (c:ℤ) + 1
    let transpositionCost := baseRead buf (prevIndexOfOtherCharInStr - 1) (prevIndexOfStrCharInOther - 1) +
      (((((r:ℤ) - prevIndexOfOtherCharInStr - 1).toNat + 1 +
         (((c:ℤ) - prevIndexOfStrCharInOther - 1).toNat)) : ℕ) : Cost)
    let v := min substitutionCost (min insertionCost (min deletionCost transpositionCost))
    baseInner str other da r (c+1) k lastPos (baseWrite buf (r+2) (c+2) v)

/-- The outer row loop of `getDamerauLevenshteinEditDistance`
(baseline source lines 63-91). -/
def baseOuter (str other : List Char) : ℕ → ℕ → (Char → Option ℕ) → List (List Cost) → List (List Cost)
  | _, 0, _, buf => buf
  | r, Nat.succ k, da, buf =>
    let buf1 := baseInner str other da r 0 other.length (-1) buf
    baseOuter str other (r+1) k
      (fun ch => if str[r]? = some ch then some r else da ch) buf1

/-- `getDamerauLevenshteinEditDistance` (baseline source lines 55-95). -/
def getDamerauLevenshteinEditDistance (str other : List Char) : Cost :=
  baseRead (baseOuter str other 0 str.length (fun _ => none) (baselineInit str.length other.length))
    ((str.length : ℤ) - 1) ((other.length : ℤ) - 1)

/-! ### The banded cost recurrence as a pure function of the two sequences

`dlBody` is the §4.2 recurrence of `initialCostAt` (without the cost overrides)
abstracted over the cell-read function; `vCell a b w r c` is the unique value the
recurrence assigns to the in-band cell `(r, c)`, and `vRead` extends it with the
virtual boundary and the off-band / out-of-range sentinel, mirroring `getCostAt`. -/

/-- The cost recurrence of `initialCostAt`, abstracted over the read function. -/
def dlBody (a b : List Char) (read : ℤ → ℤ → Cost) (r c : ℕ) : Cost :=
  min (read ((r:ℤ)-1) ((c:ℤ)-1) + (if a[r]? = b[c]? then (0:Cost) else 1))
    (min (read ((r:ℤ)-1) (c:ℤ) + 1)
      (min (read (r:ℤ) ((c:ℤ)-1) + 1)
        (if 0 < r ∧ 0 < c then
          read (lastIdxOf a b[c]? (r-1) - 1) (lastIdxOf b a[r]? (c-1) - 1) +
            ((((r:ℤ) - lastIdxOf a b[c]? (r-1) - 1).toNat + 1 +
              (((c:ℤ) - lastIdxOf b a[r]? (c-1) - 1).toNat) : ℕ) : Cost)
        else ⊤)))

/-- Reads for the reference recurrence: virtual boundary, band and range checks,
then the supplied cell function. -/
def vReadWith (cell : ℕ → ℕ → Cost) (a b : List Char) (w : ℕ) (i j : ℤ) : Cost :=
  if i < 0 ∨ j < 0 then
    if i = -1 ∧ -1 ≤ j then (((j+1).toNat : ℕ) : Cost)
    else if j = -1 ∧ -1 ≤ i then (((i+1).toNat : ℕ) : Cost)
    else ⊤
  else if (a.length : ℤ) ≤ i ∨ (b.length : ℤ) ≤ j ∨ j - i + w < 0 ∨ 2*(w:ℤ) < j - i + w then ⊤
  else cell i.toNat j.toNat

/-- The band-DP cell values, with fuel (every dependency strictly decreases `r + c`,
so fuel `r + c + 1` always suffices). -/
def vCellAux (a b : List Char) (w : ℕ) : ℕ → ℕ → ℕ → Cost
  | 0, _, _ => ⊤
  | F+1, r, c => dlBody a b (vReadWith (vCellAux a b w F) a b w) r c

/-- The value the banded recurrence assigns to cell `(r, c)`. -/
def vCell (a b : List Char) (w r c : ℕ) : Cost := vCellAux a b w (r+c+1) r c

/-- Reference read of the banded cost matrix at arbitrary integer coordinates. -/
def vRead (a b : List Char) (w : ℕ) (i j : ℤ) : Cost := vReadWith (vCell a b w) a b w i j

/-- The reference Damerau-Levenshtein distance: the recurrence evaluated with a
band wide enough to contain the whole matrix. -/
def dlRef (a b : List Char) : Cost :=
  vRead a b (a.length + b.length) ((a.length:ℤ)-1) ((b.length:ℤ)-1)

/-! ### Basic lemmas about the search helpers -/

theorem lastIdxOf_le [DecidableEq α] (l : List α) (x : Option α) (f : ℕ) :
    lastIdxOf l x f ≤ (f : ℤ) := by
  induction f with
  | zero => simp only [lastIdxOf]; split <;> simp
  | succ f ih =>
    simp only [lastIdxOf]
    split
    · simp
    · exact le_trans ih (by omega)

theorem neg_one_le_lastIdxOf [DecidableEq α] (l : List α) (x : Option α) (f : ℕ) :
    -1 ≤ lastIdxOf l x f := by
  induction f with
  | zero => simp only [lastIdxOf]; split <;> omega
  | succ f ih =>
    simp only [lastIdxOf]
    split
    · omega
    · exact ih

theorem lastIdxOf_congr [DecidableEq α] {l₁ l₂ : List α} (x : Option α) (f : ℕ)
    (h : ∀ i : ℕ, i ≤ f → l₁[i]? = l₂[i]?) :
    lastIdxOf l₁ x f = lastIdxOf l₂ x f := by
  induction f with
  | zero => simp only [lastIdxOf, h 0 (le_refl 0)]
  | succ f ih =>
    simp only [lastIdxOf, h (f+1) (le_refl (f+1))]
    split
    · rfl
    · exact ih (fun i hi => h i (by omega))

/-! ### Congruence and monotonicity of the recurrence body -/

theorem dlBody_congr {a b : List Char} {read₁ read₂ : ℤ → ℤ → Cost} {r c : ℕ}
    (h : ∀ i j : ℤ, i ≤ (r:ℤ) → j ≤ (c:ℤ) → i + j < (r:ℤ) + c → read₁ i j = read₂ i j) :
    dlBody a b read₁ r c = dlBody a b read₂ r c := by
  unfold dlBody
  rw [h ((r:ℤ)-1) ((c:ℤ)-1) (by omega) (by omega) (by omega),
      h ((r:ℤ)-1) (c:ℤ) (by omega) (by omega) (by omega),
      h (r:ℤ) ((c:ℤ)-1) (by omega) (by omega) (by omega)]
  congr 3
  split
  · next hrc =>
    have hk := lastIdxOf_le a (b[c]?) (r-1)
    have hl := lastIdxOf_le b (a[r]?) (c-1)
    have hk' : ((r-1 : ℕ) : ℤ) = (r:ℤ) - 1 := by omega
    have hl' : ((c-1 : ℕ) : ℤ) = (c:ℤ) - 1 := by omega
    rw [hk'] at hk
    rw [hl'] at hl
    rw [h (lastIdxOf a b[c]? (r-1) - 1) (lastIdxOf b a[r]? (c-1) - 1)
      (by omega) (by omega) (by omega)]
  · rfl

theorem dlBody_mono {a b : List Char} {read₁ read₂ : ℤ → ℤ → Cost} {r c : ℕ}
    (h : ∀ i j : ℤ, i ≤ (r:ℤ) → j ≤ (c:ℤ) → i + j < (r:ℤ) + c → read₁ i j ≤ read₂ i j) :
    dlBody a b read₁ r c ≤ dlBody a b read₂ r c := by
  unfold dlBody
  have h1 := h ((r:ℤ)-1) ((c:ℤ)-1) (by omega) (by omega) (by omega)
  have h2 := h ((r:ℤ)-1) (c:ℤ) (by omega) (by omega) (by omega)
  have h3 := h (r:ℤ) ((c:ℤ)-1) (by omega) (by omega) (by omega)
  refine min_le_min (add_le_add_right h1 _) (min_le_min (add_le_add_right h2 _)
    (min_le_min (add_le_add_right h3 _) ?_))
  split
  · next hrc =>
    have hk := lastIdxOf_le a (b[c]?) (r-1)
    have hl := lastIdxOf_le b (a[r]?) (c-1)
    have hk' : ((r-1 : ℕ) : ℤ) = (r:ℤ) - 1 := by omega
    have hl' : ((c-1 : ℕ) : ℤ) = (c:ℤ) - 1 := by omega
    rw [hk'] at hk
    rw [hl'] at hl
    exact add_le_add_right
      (h (lastIdxOf a b[c]? (r-1) - 1) (lastIdxOf b a[r]? (c-1) - 1)
        (by omega) (by omega) (by omega)) _
  · exact le_refl _

/-- Stability of the body under appending to both sequences: the recurrence at
`(r, c)` only inspects indices `≤ r` resp. `≤ c`. -/
theorem dlBody_stable {a b e f : List Char} {read₁ read₂ : ℤ → ℤ → Cost} {r c : ℕ}
    (hr : r < a.length) (hc : c < b.length)
    (h : ∀ i j : ℤ, i ≤ (r:ℤ) → j ≤ (c:ℤ) → i + j < (r:ℤ) + c → read₁ i j = read₂ i j) :
    dlBody (a++e) (b++f) read₁ r c = dlBody a b read₂ r c := by
  have ha : (a++e)[r]? = a[r]? := List.getElem?_append_left hr
  have hb : (b++f)[c]? = b[c]? := List.getElem?_append_left hc
  have hk : lastIdxOf (a++e) (b[c]?) (r-1) = lastIdxOf a (b[c]?) (r-1) :=
    lastIdxOf_congr _ _ (fun i hi => List.getElem?_append_left (by omega))
  have hl : lastIdxOf (b++f) (a[r]?) (c-1) = lastIdxOf b (a[r]?) (c-1) :=
    lastIdxOf_congr _ _ (fun i hi => List.getElem?_append_left (by omega))
  unfold dlBody
  rw [ha, hb, hk, hl,
      h ((r:ℤ)-1) ((c:ℤ)-1) (by omega) (by omega) (by omega),
      h ((r:ℤ)-1) (c:ℤ) (by omega) (by omega) (by omega),
      h (r:ℤ) ((c:ℤ)-1) (by omega) (by omega) (by omega)]
  congr 3
  split
  · next hrc =>
    have hk2 := lastIdxOf_le a (b[c]?) (r-1)
    have hl2 := lastIdxOf_le b (a[r]?) (c-1)
    have hk' : ((r-1 : ℕ) : ℤ) = (r:ℤ) - 1 := by omega
    have hl' : ((c-1 : ℕ) : ℤ) = (c:ℤ) - 1 := by omega
    rw [hk'] at hk2
    rw [hl'] at hl2
    rw [h (lastIdxOf a b[c]? (r-1) - 1) (lastIdxOf b a[r]? (c-1) - 1)
      (by omega) (by omega) (by omega)]
  · rfl

/-! ### Fuel irrelevance, the recurrence equation, monotonicity, stability -/

theorem vCellAux_irrel (a b : List Char) (w : ℕ) :
    ∀ n F₁ F₂ r c, r + c ≤ n → r + c < F₁ → r + c < F₂ →
      vCellAux a b w F₁ r c = vCellAux a b w F₂ r c := by
  intro n
  induction n with
  | zero =>
    intro F₁ F₂ r c hn h1 h2
    obtain ⟨G₁, rfl⟩ : ∃ G, F₁ = G + 1 := ⟨F₁ - 1, by omega⟩
    obtain ⟨G₂, rfl⟩ : ∃ G, F₂ = G + 1 := ⟨F₂ - 1, by omega⟩
    show dlBody _ _ _ _ _ = dlBody _ _ _ _ _
    refine dlBody_congr (fun i j hi hj hsum => ?_)
    unfold vReadWith
    split
    · rfl
    · next hneg =>
      exfalso
      omega
  | succ n ih =>
    intro F₁ F₂ r c hn h1 h2
    obtain ⟨G₁, rfl⟩ : ∃ G, F₁ = G + 1 := ⟨F₁ - 1, by omega⟩
    obtain ⟨G₂, rfl⟩ : ∃ G, F₂ = G + 1 := ⟨F₂ - 1, by omega⟩
    show dlBody _ _ _ _ _ = dlBody _ _ _ _ _
    refine dlBody_congr (fun i j hi hj hsum => ?_)
    unfold vReadWith
    split
    · rfl
    · next hneg =>
      split
      · rfl
      · exact ih G₁ G₂ i.toNat j.toNat (by omega) (by omega) (by omega)

/-- The defining recurrence of `vCell`, with all reads via `vRead`. -/
theorem vCell_eq (a b : List Char) (w r c : ℕ) :
    vCell a b w r c = dlBody a b (vRead a b w) r c := by
  show dlBody a b (vReadWith (vCellAux a b w (r+c)) a b w) r c = _
  refine dlBody_congr (fun i j hi hj hsum => ?_)
  unfold vRead vReadWith
  split
  · rfl
  · next hneg =>
    split
    · rfl
    · exact vCellAux_irrel a b w (i.toNat + j.toNat) _ _ i.toNat j.toNat
        (le_refl _) (by omega) (by omega)

/-- Widening the band can only lower the recurrence values (cells). -/
theorem vCellAux_anti (a b : List Char) {w W : ℕ} (hwW : w ≤ W) :
    ∀ F r c, vCellAux a b W F r c ≤ vCellAux a b w F r c := by
  intro F
  induction F with
  | zero => intro r c; exact le_refl ⊤
  | succ F ih =>
    intro r c
    show dlBody _ _ _ _ _ ≤ dlBody _ _ _ _ _
    refine dlBody_mono (fun i j hi hj hsum => ?_)
    unfold vReadWith
    split
    · exact le_refl _
    · next hneg =>
      by_cases hw : (a.length : ℤ) ≤ i ∨ (b.length : ℤ) ≤ j ∨ j - i + w < 0 ∨ 2*(w:ℤ) < j - i + w
      · rw [if_pos hw]
        exact le_top
      · rw [if_neg hw, if_neg (by omega)]
        exact ih i.toNat j.toNat

/-- Widening the band can only lower the recurrence values (reads). -/
theorem vRead_anti (a b : List Char) {w W : ℕ} (hwW : w ≤ W) (i j : ℤ) :
    vRead a b W i j ≤ vRead a b w i j := by
  unfold vRead vReadWith
  split
  · exact le_refl _
  · next hneg =>
    by_cases hw : (a.length : ℤ) ≤ i ∨ (b.length : ℤ) ≤ j ∨ j - i + w < 0 ∨ 2*(w:ℤ) < j - i + w
    · rw [if_pos hw]
      exact le_top
    · rw [if_neg hw, if_neg (by omega)]
      exact vCellAux_anti a b hwW _ i.toNat j.toNat

/-- Cell values only depend on the prefixes up to the cell's coordinates. -/
theorem vCellAux_stable (a b e f : List Char) (w : ℕ) :
    ∀ F r c, r < a.length → c < b.length →
      vCellAux (a++e) (b++f) w F r c = vCellAux a b w F r c := by
  intro F
  induction F with
  | zero => intro r c _ _; rfl
  | succ F ih =>
    intro r c hr hc
    show dlBody _ _ _ _ _ = dlBody _ _ _ _ _
    refine dlBody_stable hr hc (fun i j hi hj hsum => ?_)
    unfold vReadWith
    split
    · rfl
    · next hneg =>
      by_cases hw : (a.length : ℤ) ≤ i ∨ (b.length : ℤ) ≤ j ∨ j - i + w < 0 ∨ 2*(w:ℤ) < j - i + w
      · rw [if_pos (by
          rcases hw with h | h | h | h
          · exact absurd h (by omega)
          · exact absurd h (by omega)
          · exact Or.inr (Or.inr (Or.inl h))
          · exact Or.inr (Or.inr (Or.inr h))), if_pos hw]
      · rw [if_neg (by
          simp only [List.length_append]
          push_cast
          omega), if_neg hw]
        exact ih i.toNat j.toNat (by omega) (by omega)

/-- Reads only depend on the prefixes up to the read coordinates. -/
theorem vRead_stable (a b e f : List Char) (w : ℕ) (i j : ℤ)
    (hi : i < a.length) (hj : j < b.length) :
    vRead (a++e) (b++f) w i j = vRead a b w i j := by
  unfold vRead vReadWith
  split
  · rfl
  · next hneg =>
    by_cases hw : (a.length : ℤ) ≤ i ∨ (b.length : ℤ) ≤ j ∨ j - i + w < 0 ∨ 2*(w:ℤ) < j - i + w
    · rw [if_pos (by
        rcases hw with h | h | h | h
        · exact absurd h (by omega)
        · exact absurd h (by omega)
        · exact Or.inr (Or.inr (Or.inl h))
        · exact Or.inr (Or.inr (Or.inr h))), if_pos hw]
    · rw [if_neg (by
        simp only [List.length_append]
        push_cast
        omega), if_neg hw]
      exact vCellAux_stable a b e f w _ i.toNat j.toNat (by omega) (by omega)

/-! ### The state invariant of append-built snapshots

`GoodState S a b w` says the snapshot stores exactly the recurrence values on all
in-band, in-range cells (and the sentinel elsewhere in its rows).  It is
established for the empty snapshot and preserved by both appends, in any order. -/

/-- The stored slot of row `r` at in-row index `idx`. -/
def entryAt (S : Calc) (r idx : ℕ) : Option Cost :=
  (S.resolvedDistances.getD r [])[idx]?

/-- What a good snapshot stores at row `r`, in-row index `idx`. -/
def goodEntry (a b : List Char) (w r idx : ℕ) : Option Cost :=
  some (if 0 ≤ (idx:ℤ) + r - w ∧ (idx:ℤ) + r - w < b.length
        then vCell a b w r ((idx:ℤ) + r - w).toNat else ⊤)

/-- The invariant of snapshots reachable by appends at fixed width `w`. -/
def GoodState (S : Calc) (a b : List Char) (w : ℕ) : Prop :=
  S.inputSequence = a ∧ S.matchSequence = b ∧ S.diagonalWidth = w ∧
  S.resolvedDistances.length = a.length ∧
  (∀ r, r < a.length → (S.resolvedDistances.getD r []).length = 2*w+1) ∧
  (∀ r idx, r < a.length → idx ≤ 2*w → entryAt S r idx = goodEntry a b w r idx)

theorem getD_of_lt {α : Type} (l : List α) (d : α) (r : ℕ) (h : r < l.length) :
    l[r]? = some (l.getD r d) := by
  rw [List.getD_eq_getElem?_getD, List.getElem?_eq_getElem h]
  rfl

/-- In a good snapshot every read agrees with the reference read. -/
theorem good_read {S : Calc} {a b : List Char} {w : ℕ} (h : GoodState S a b w) (i j : ℤ) :
    getCostAt S i j = vRead a b w i j := by
  obtain ⟨hin, hmt, hw, hlen, hrowlen, hentry⟩ := h
  unfold getCostAt getCostAtW vRead vReadWith
  rw [hw]
  by_cases hneg : i < 0 ∨ j < 0
  · rw [if_pos hneg, if_pos hneg]
  · rw [if_neg hneg, if_neg hneg]
    by_cases hband : j - i + (w:ℤ) < 0 ∨ 2*(w:ℤ) < j - i + w
    · rw [if_pos hband, if_pos (by omega)]
    · rw [if_neg hband]
      by_cases hi : (a.length : ℤ) ≤ i
      · rw [if_pos (by omega)]
        have hrow : S.resolvedDistances[i.toNat]? = none :=
          List.getElem?_eq_none (by omega)
        rw [hrow]
        rfl
      · have hilt : i.toNat < a.length := by omega
        have hrow : S.resolvedDistances[i.toNat]? =
            some (S.resolvedDistances.getD i.toNat []) :=
          getD_of_lt _ _ _ (by omega)
        have hidxle : (j - i + (w:ℤ)).toNat ≤ 2*w := by omega
        have hent := hentry i.toNat (j - i + (w:ℤ)).toNat hilt hidxle
        unfold entryAt at hent
        unfold goodEntry at hent
        by_cases hj : (b.length : ℤ) ≤ j
        · rw [if_neg (by omega)] at hent
          rw [hrow, Option.some_bind, hent, if_pos (by omega)]
          rfl
        · rw [if_pos (by constructor <;> omega)] at hent
          have hix : ((((j - i + (w:ℤ)).toNat : ℤ) + (i.toNat : ℤ) - (w:ℤ)).toNat) = j.toNat := by
            omega
          rw [hix] at hent
          rw [hrow, Option.some_bind, hent, if_neg (by omega)]
          rfl

/-- `initialCostAt` without overrides is exactly the recurrence body over the
snapshot's own reads. -/
theorem initialCostAt_none (S : Calc) (r c : ℕ) :
    initialCostAt S r c none none =
      dlBody S.inputSequence S.matchSequence (getCostAt S) r c := rfl

theorem vCell_stable_input (a b : List Char) (ch : Char) (w r c : ℕ)
    (hr : r < a.length) (hc : c < b.length) :
    vCell (a++[ch]) b w r c = vCell a b w r c := by
  have h := vCellAux_stable a b [ch] [] w (r+c+1) r c hr hc
  rw [List.append_nil] at h
  exact h

theorem vCell_stable_match (a b : List Char) (ch : Char) (w r c : ℕ)
    (hr : r < a.length) (hc : c < b.length) :
    vCell a (b++[ch]) w r c = vCell a b w r c := by
  have h := vCellAux_stable a b [] [ch] w (r+c+1) r c hr hc
  rw [List.append_nil] at h
  exact h

theorem goodEntry_stable_input (a b : List Char) (ch : Char) (w r idx : ℕ)
    (hr : r < a.length) :
    goodEntry (a++[ch]) b w r idx = goodEntry a b w r idx := by
  unfold goodEntry
  split
  · next hc =>
    rw [vCell_stable_input a b ch w r _ hr (by omega)]
  · rfl

theorem goodEntry_stable_match (a b : List Char) (ch : Char) (w r idx : ℕ)
    (hr : r < a.length) (hc : (idx:ℤ) + r - w ≠ (b.length:ℤ)) :
    goodEntry a (b++[ch]) w r idx = goodEntry a b w r idx := by
  unfold goodEntry
  simp only [List.length_append, List.length_cons, List.length_nil]
  by_cases h1 : 0 ≤ (idx:ℤ) + r - w ∧ (idx:ℤ) + r - w < (b.length:ℤ)
  · rw [if_pos (by push_cast; omega), if_pos h1,
      vCell_stable_match a b ch w r _ hr (by omega)]
  · rw [if_neg (by push_cast; omega), if_neg h1]

/-! ### Filling a fresh input row -/

/-- The state in the middle of `addInputChar`'s fill loop: all old rows good,
the fresh last row written exactly on indices `[w ∸ m, cIdx)`. -/
def MidRow (a b : List Char) (ch : Char) (w cIdx : ℕ) (T : Calc) : Prop :=
  T.inputSequence = a ++ [ch] ∧ T.matchSequence = b ∧ T.diagonalWidth = w ∧
  T.resolvedDistances.length = a.length + 1 ∧
  (∀ r', r' < a.length + 1 → (T.resolvedDistances.getD r' []).length = 2*w+1) ∧
  (∀ r' idx, r' < a.length → idx ≤ 2*w → entryAt T r' idx = goodEntry (a++[ch]) b w r' idx) ∧
  (∀ idx, idx ≤ 2*w → entryAt T a.length idx =
     some (if w - a.length ≤ idx ∧ idx < cIdx
           then vCell (a++[ch]) b w a.length ((idx:ℤ) + a.length - w).toNat else ⊤))

/-- In the middle of the fill, reads strictly before the write position agree
with the reference. -/
theorem midRow_read {a b : List Char} {ch : Char} {w cIdx : ℕ} {T : Calc}
    (hm : MidRow a b ch w cIdx T)
    (hcIdx : (cIdx:ℤ) ≤ min (2*(w:ℤ)) ((b.length:ℤ) - a.length - 1 + w) + 1)
    (i j : ℤ) (hreg : i < a.length ∨ (i = a.length ∧ j < (cIdx:ℤ) + a.length - w)) :
    getCostAt T i j = vRead (a++[ch]) b w i j := by
  obtain ⟨hin, hmt, hw, hlen, hrowlen, hold, hnew⟩ := hm
  unfold getCostAt getCostAtW vRead vReadWith
  rw [hw]
  by_cases hneg : i < 0 ∨ j < 0
  · rw [if_pos hneg, if_pos hneg]
  · rw [if_neg hneg, if_neg hneg]
    by_cases hband : j - i + (w:ℤ) < 0 ∨ 2*(w:ℤ) < j - i + w
    · rw [if_pos hband, if_pos (by omega)]
    · rw [if_neg hband]
      have hilt : i.toNat < a.length + 1 := by omega
      have hrow := getD_of_lt T.resolvedDistances [] i.toNat (by omega)
      have hidxle : (j - i + (w:ℤ)).toNat ≤ 2*w := by omega
      rcases hreg with hrlt | ⟨hre, hjlt⟩
      · have hent := hold i.toNat (j - i + (w:ℤ)).toNat (by omega) hidxle
        unfold entryAt at hent
        unfold goodEntry at hent
        by_cases hj : (b.length : ℤ) ≤ j
        · rw [if_neg (by omega)] at hent
          rw [hrow, Option.some_bind, hent, if_pos (by omega)]
          rfl
        · rw [if_pos (by constructor <;> omega)] at hent
          have hix : ((((j - i + (w:ℤ)).toNat : ℤ) + (i.toNat : ℤ) - (w:ℤ)).toNat) = j.toNat := by
            omega
          rw [hix] at hent
          rw [hrow, Option.some_bind, hent,
            if_neg (by simp only [List.length_append, List.length_cons, List.length_nil]
                       push_cast; omega)]
          rfl
      · have hent := hnew (j - i + (w:ℤ)).toNat hidxle
        unfold entryAt at hent
        rw [if_pos (by constructor <;> omega)] at hent
        have hix : ((((j - i + (w:ℤ)).toNat : ℤ) + (a.length : ℤ) - (w:ℤ)).toNat) = j.toNat := by
          omega
        rw [hix] at hent
        have hjn : j < (b.length : ℤ) := by omega
        have hia : i.toNat = a.length := by omega
        rw [hrow, Option.some_bind, hia, hent,
          if_neg (by simp only [List.length_append, List.length_cons, List.length_nil]
                     push_cast; omega)]
        rfl

theorem setCell_length (rows : List (List Cost)) (r idx : ℕ) (v : Cost) :
    (setCell rows r idx v).length = rows.length := by
  unfold setCell
  simp

theorem setCell_getD_ne (rows : List (List Cost)) (r idx : ℕ) (v : Cost) (r' : ℕ)
    (h : r' ≠ r) :
    (setCell rows r idx v).getD r' [] = rows.getD r' [] := by
  unfold setCell
  rw [List.getD_eq_getElem?_getD, List.getElem?_set_ne (fun he => h he.symm),
    List.getD_eq_getElem?_getD]

theorem setCell_getD_eq (rows : List (List Cost)) (r idx : ℕ) (v : Cost)
    (h : r < rows.length) :
    (setCell rows r idx v).getD r [] = (rows.getD r []).set idx v := by
  unfold setCell
  rw [List.getD_eq_getElem?_getD, List.getElem?_set_eq h]
  rfl

theorem set_getElem?_eq (row : List Cost) (idx : ℕ) (v : Cost) (h : idx < row.length) :
    (row.set idx v)[idx]? = some v := List.getElem?_set_eq h

theorem set_getElem?_ne (row : List Cost) (idx idx' : ℕ) (v : Cost) (h : idx' ≠ idx) :
    (row.set idx v)[idx']? = row[idx']? := List.getElem?_set_ne (fun he => h he.symm)

/-- One pass of the fill loop of `addInputChar` keeps the invariant and ends in a
good snapshot. -/
theorem fillRow_good (a b : List Char) (ch : Char) (w : ℕ) :
    ∀ (cnt : ℕ) (cIdx : ℕ) (T : Calc), MidRow a b ch w cIdx T →
      w - a.length ≤ cIdx →
      (cIdx:ℤ) + cnt = min (2*(w:ℤ)) ((b.length:ℤ) - a.length - 1 + w) + 1 →
      GoodState (fillRowLoop a.length cIdx cnt T) (a++[ch]) b w := by
  intro cnt
  induction cnt with
  | zero =>
    intro cIdx T hm hc0 hend
    obtain ⟨hin, hmt, hw, hlen, hrowlen, hold, hnew⟩ := hm
    show GoodState T (a++[ch]) b w
    refine ⟨hin, hmt, hw, by rw [hlen, List.length_append]; rfl, ?_, ?_⟩
    · intro r' hr'
      exact hrowlen r' (by simpa using hr')
    · intro r' idx hr' hidx
      rw [List.length_append] at hr'
      by_cases hrold : r' < a.length
      · exact hold r' idx hrold hidx
      · have hre : r' = a.length := by simp at hr'; omega
        subst hre
        rw [hnew idx hidx]
        unfold goodEntry
        by_cases hcond : 0 ≤ (idx:ℤ) + (a.length:ℤ) - w ∧ (idx:ℤ) + (a.length:ℤ) - w < (b.length:ℤ)
        · rw [if_pos hcond, if_pos (by omega)]
        · rw [if_neg hcond, if_neg (by omega)]
  | succ k ihsucc =>
    intro cIdx T hm hc0 hend
    have hm' := hm
    obtain ⟨hin, hmt, hw, hlen, hrowlen, hold, hnew⟩ := hm
    show GoodState (fillRowLoop a.length (cIdx+1) k _) (a++[ch]) b w
    have hcle : (cIdx:ℤ) ≤ 2*(w:ℤ) := by omega
    have hcn : (cIdx:ℤ) ≤ ((b.length:ℤ) - a.length - 1 + w) := by omega
    -- the value written this step is the recurrence value of its cell
    have htc : (0:ℤ) ≤ (cIdx:ℤ) + a.length - w := by omega
    have hv : initialCostAt T a.length (((cIdx:ℤ) + a.length - T.diagonalWidth)).toNat none none
        = vCell (a++[ch]) b w a.length (((cIdx:ℤ) + (a.length:ℤ) - (w:ℤ)).toNat) := by
      rw [hw, initialCostAt_none, hin, hmt, vCell_eq]
      refine dlBody_congr (fun i j hi hj hsum => ?_)
      refine midRow_read hm' (by omega) i j ?_
      rcases lt_or_eq_of_le hi with hilt | hie
      · left
        omega
      · right
        constructor
        · omega
        · omega
    refine ihsucc (cIdx+1) _ ⟨hin, hmt, hw, by rw [setCell_length]; exact hlen, ?_, ?_, ?_⟩
      (by omega) (by push_cast; omega)
    · intro r' hr'
      by_cases hrr : r' = a.length
      · subst hrr
        rw [setCell_getD_eq _ _ _ _ (by omega), List.length_set]
        exact hrowlen _ hr'
      · rw [setCell_getD_ne _ _ _ _ _ hrr]
        exact hrowlen _ hr'
    · intro r' idx hr' hidx
      unfold entryAt
      rw [setCell_getD_ne _ _ _ _ _ (by omega)]
      exact hold r' idx hr' hidx
    · intro idx hidx
      unfold entryAt
      rw [setCell_getD_eq _ _ _ _ (by omega)]
      by_cases hieq : idx = cIdx
      · subst hieq
        rw [set_getElem?_eq _ _ _ (by rw [hrowlen a.length (by omega)]; omega)]
        rw [hv]
        rw [if_pos (by constructor <;> omega)]
      · rw [set_getElem?_ne _ _ _ _ hieq]
        have := hnew idx hidx
        unfold entryAt at this
        rw [this]
        by_cases hcond : w - a.length ≤ idx ∧ idx < cIdx
        · rw [if_pos hcond, if_pos (by omega)]
        · rw [if_neg hcond, if_neg (by omega)]

theorem getD_append_lt {α : Type} (rows : List α) (x : α) (d : α) (r' : ℕ)
    (h : r' < rows.length) :
    (rows ++ [x]).getD r' d = rows.getD r' d := by
  rw [List.getD_eq_getElem?_getD, List.getD_eq_getElem?_getD, List.getElem?_append_left h]

theorem getD_append_self {α : Type} (rows : List α) (x : α) (d : α) :
    (rows ++ [x]).getD rows.length d = x := by
  simp [List.getD_eq_getElem?_getD]

/-- `addInputChar` preserves the invariant. -/
theorem good_addInputChar {S : Calc} {a b : List Char} {w : ℕ}
    (h : GoodState S a b w) (ch : Char) :
    GoodState (addInputChar S ch) (a ++ [ch]) b w := by
  obtain ⟨rows, w0, inp, mtc⟩ := S
  obtain ⟨hin, hmt, hw, hlen, hrowlen, hentry⟩ := h
  dsimp only at hin hmt hw hlen hrowlen hentry
  subst hin
  subst hmt
  subst hw
  unfold addInputChar
  dsimp only
  by_cases hb : mtc.length = 0
  · rw [if_pos hb]
    refine ⟨rfl, rfl, rfl, by simp [hlen], ?_, ?_⟩
    · intro r' hr'
      simp only [List.length_append, List.length_cons, List.length_nil] at hr'
      by_cases hro : r' < inp.length
      · rw [getD_append_lt _ _ _ _ (by omega)]
        exact hrowlen r' hro
      · have : r' = inp.length := by omega
        subst this
        rw [← hlen, getD_append_self]
        simp
    · intro r' idx hr' hidx
      simp only [List.length_append, List.length_cons, List.length_nil] at hr'
      unfold entryAt
      dsimp only
      by_cases hro : r' < inp.length
      · rw [getD_append_lt _ _ _ _ (by omega)]
        rw [goodEntry_stable_input inp mtc ch w0 r' idx hro]
        exact hentry r' idx hro hidx
      · have : r' = inp.length := by omega
        subst this
        rw [← hlen, getD_append_self]
        rw [List.getElem?_replicate_of_lt (by omega)]
        unfold goodEntry
        rw [if_neg (by omega)]
  · rw [if_neg hb]
    have hmid : MidRow inp mtc ch w0 (w0 - inp.length)
        ⟨rows ++ [List.replicate (2*w0+1) ⊤], w0, inp ++ [ch], mtc⟩ := by
      refine ⟨rfl, rfl, rfl, by simp [hlen], ?_, ?_, ?_⟩
      · intro r' hr'
        by_cases hro : r' < inp.length
        · rw [getD_append_lt _ _ _ _ (by omega)]
          exact hrowlen r' hro
        · have : r' = inp.length := by omega
          subst this
          rw [← hlen, getD_append_self]
          simp
      · intro r' idx hr' hidx
        unfold entryAt
        dsimp only
        rw [getD_append_lt _ _ _ _ (by omega)]
        rw [goodEntry_stable_input inp mtc ch w0 r' idx hr']
        exact hentry r' idx hr' hidx
      · intro idx hidx
        unfold entryAt
        dsimp only
        rw [← hlen, getD_append_self]
        rw [List.getElem?_replicate_of_lt (by omega)]
        rw [if_neg (by omega)]
    by_cases hdeg :
        min (2*(w0:ℤ)) ((mtc.length:ℤ) - inp.length - 1 + w0) < ((w0 - inp.length : ℕ) : ℤ) - 1
    · have hcnt : ((min (2*(w0:ℤ)) ((mtc.length:ℤ) - inp.length - 1 + w0)) -
          ((w0 - inp.length : ℕ) : ℤ) + 1).toNat = 0 := by
        omega
      rw [hcnt]
      obtain ⟨hin1, hmt1, hw1, hlen1, hrowlen1, hold1, hnew1⟩ := hmid
      show GoodState ⟨rows ++ [List.replicate (2*w0+1) ⊤], w0, inp ++ [ch], mtc⟩
        (inp++[ch]) mtc w0
      refine ⟨rfl, rfl, rfl, by simp [hlen],
        fun r' hr' => hrowlen1 r' (by simpa using hr'), ?_⟩
      intro r' idx hr' hidx
      simp only [List.length_append, List.length_cons, List.length_nil] at hr'
      by_cases hro : r' < inp.length
      · exact hold1 r' idx hro hidx
      · have : r' = inp.length := by omega
        subst this
        rw [hnew1 idx hidx]
        rw [if_neg (by omega)]
        unfold goodEntry
        rw [if_neg (by omega)]
    · exact fillRow_good inp mtc ch w0 _ _ _ hmid (le_refl _) (by omega)

/-! ### Filling a fresh match column -/

/-- The state in the middle of `addMatchChar`'s fill loop: the new column
`c = b.length` written exactly on rows `[b.length ∸ w, rIdx)`, everything else
as before the append. -/
def MidCol (a b : List Char) (ch : Char) (w rIdx : ℕ) (T : Calc) : Prop :=
  T.inputSequence = a ∧ T.matchSequence = b ++ [ch] ∧ T.diagonalWidth = w ∧
  T.resolvedDistances.length = a.length ∧
  (∀ r', r' < a.length → (T.resolvedDistances.getD r' []).length = 2*w+1) ∧
  (∀ r' idx, r' < a.length → idx ≤ 2*w →
    entryAt T r' idx =
      if (idx:ℤ) + r' - w = (b.length:ℤ)
      then some (if b.length - w ≤ r' ∧ r' < rIdx then vCell a (b++[ch]) w r' b.length else ⊤)
      else goodEntry a b w r' idx)

/-- In the middle of the column fill, reads strictly before the write position
agree with the reference. -/
theorem midCol_read {a b : List Char} {ch : Char} {w rIdx : ℕ} {T : Calc}
    (hm : MidCol a b ch w rIdx T)
    (i j : ℤ) (hreg : j < b.length ∨ (j = b.length ∧ i < rIdx)) :
    getCostAt T i j = vRead a (b++[ch]) w i j := by
  obtain ⟨hin, hmt, hw, hlen, hrowlen, hent⟩ := hm
  unfold getCostAt getCostAtW vRead vReadWith
  rw [hw]
  by_cases hneg : i < 0 ∨ j < 0
  · rw [if_pos hneg, if_pos hneg]
  · rw [if_neg hneg, if_neg hneg]
    by_cases hband : j - i + (w:ℤ) < 0 ∨ 2*(w:ℤ) < j - i + w
    · rw [if_pos hband, if_pos (by omega)]
    · rw [if_neg hband]
      by_cases hi : (a.length : ℤ) ≤ i
      · rw [if_pos (by omega)]
        have hrow : T.resolvedDistances[i.toNat]? = none :=
          List.getElem?_eq_none (by omega)
        rw [hrow]
        rfl
      · have hrow := getD_of_lt T.resolvedDistances [] i.toNat (by omega)
        have hidxle : (j - i + (w:ℤ)).toNat ≤ 2*w := by omega
        have he := hent i.toNat (j - i + (w:ℤ)).toNat (by omega) hidxle
        unfold entryAt at he
        rcases hreg with hjlt | ⟨hje, hilt⟩
        · rw [if_neg (by omega)] at he
          unfold goodEntry at he
          rw [if_pos (by constructor <;> omega)] at he
          have hix : ((((j - i + (w:ℤ)).toNat : ℤ) + (i.toNat : ℤ) - (w:ℤ)).toNat) = j.toNat := by
            omega
          rw [hix] at he
          rw [hrow, Option.some_bind, he,
            if_neg (by simp only [List.length_append, List.length_cons, List.length_nil]
                       push_cast; omega)]
          simp only [Option.getD_some]
          rw [vCell_stable_match a b ch w i.toNat j.toNat (by omega) (by omega)]
        · rw [if_pos (by omega)] at he
          rw [if_pos (by constructor <;> omega)] at he
          rw [hrow, Option.some_bind, he,
            if_neg (by simp only [List.length_append, List.length_cons, List.length_nil]
                       push_cast; omega)]
          simp only [Option.getD_some]
          have h1 : i.toNat = i.toNat := rfl
          have h2 : j.toNat = b.length := by omega
          rw [h2]
    -- done

/-- One pass of the fill loop of `addMatchChar` keeps the invariant and ends in
a good snapshot. -/
theorem fillCol_good (a b : List Char) (ch : Char) (w : ℕ) :
    ∀ (cnt : ℕ) (rIdx : ℕ) (T : Calc), MidCol a b ch w rIdx T →
      b.length - w ≤ rIdx →
      (rIdx:ℤ) + cnt = min ((a.length:ℤ) - 1) ((b.length:ℤ) + w) + 1 →
      GoodState (fillColLoop b.length rIdx cnt T) a (b++[ch]) w := by
  intro cnt
  induction cnt with
  | zero =>
    intro rIdx T hm hr0 hend
    obtain ⟨hin, hmt, hw, hlen, hrowlen, hent⟩ := hm
    show GoodState T a (b++[ch]) w
    refine ⟨hin, hmt, hw, hlen, hrowlen, ?_⟩
    intro r' idx hr' hidx
    rw [hent r' idx hr' hidx]
    by_cases htc : (idx:ℤ) + r' - w = (b.length:ℤ)
    · rw [if_pos htc, if_pos (by omega)]
      unfold goodEntry
      rw [if_pos (by simp only [List.length_append, List.length_cons, List.length_nil]
                     push_cast; omega)]
      have : (((idx:ℤ) + r' - w).toNat) = b.length := by omega
      rw [this]
    · rw [if_neg htc]
      rw [goodEntry_stable_match a b ch w r' idx hr' htc]
  | succ k ihsucc =>
    intro rIdx T hm hr0 hend
    have hm' := hm
    obtain ⟨hin, hmt, hw, hlen, hrowlen, hent⟩ := hm
    show GoodState (fillColLoop b.length (rIdx+1) k _) a (b++[ch]) w
    have hrm : (rIdx:ℤ) ≤ (a.length:ℤ) - 1 := by omega
    have hrc : (rIdx:ℤ) ≤ (b.length:ℤ) + w := by omega
    have hv : initialCostAt T rIdx b.length none none
        = vCell a (b++[ch]) w rIdx b.length := by
      rw [initialCostAt_none, hin, hmt, vCell_eq]
      refine dlBody_congr (fun i j hi hj hsum => ?_)
      refine midCol_read hm' i j ?_
      rcases lt_or_eq_of_le hj with hjlt | hje
      · left
        omega
      · right
        constructor <;> omega
    refine ihsucc (rIdx+1) _ ⟨hin, hmt, hw, by rw [setCell_length]; exact hlen, ?_, ?_⟩
      (by omega) (by push_cast; omega)
    · intro r' hr'
      by_cases hrr : r' = rIdx
      · subst hrr
        rw [setCell_getD_eq _ _ _ _ (by omega), List.length_set]
        exact hrowlen _ hr'
      · rw [setCell_getD_ne _ _ _ _ _ hrr]
        exact hrowlen _ hr'
    · intro r' idx hr' hidx
      unfold entryAt
      by_cases hrr : r' = rIdx
      · subst hrr
        rw [setCell_getD_eq _ _ _ _ (by omega)]
        by_cases hieq : idx = ((b.length:ℤ) - r' + w).toNat
        · subst hieq
          rw [hw, set_getElem?_eq _ _ _ (by rw [hrowlen r' (by omega)]; omega)]
          rw [hv]
          rw [if_pos (by omega), if_pos (by constructor <;> omega)]
        · rw [hw, set_getElem?_ne _ _ _ _ hieq]
          have := hent r' idx (by omega) hidx
          unfold entryAt at this
          rw [this]
          by_cases htc : (idx:ℤ) + r' - w = (b.length:ℤ)
          · exfalso
            exact hieq (by omega)
          · rw [if_neg htc, if_neg htc]
      · rw [setCell_getD_ne _ _ _ _ _ hrr]
        have := hent r' idx hr' hidx
        unfold entryAt at this
        rw [this]
        by_cases htc : (idx:ℤ) + r' - w = (b.length:ℤ)
        · rw [if_pos htc, if_pos htc]
          by_cases hcond : b.length - w ≤ r' ∧ r' < rIdx
          · rw [if_pos hcond, if_pos (by omega)]
          · rw [if_neg hcond, if_neg (by omega)]
        · rw [if_neg htc, if_neg htc]

/-- `addMatchChar` preserves the invariant. -/
theorem good_addMatchChar {S : Calc} {a b : List Char} {w : ℕ}
    (h : GoodState S a b w) (ch : Char) :
    GoodState (addMatchChar S ch) a (b ++ [ch]) w := by
  obtain ⟨rows, w0, inp, mtc⟩ := S
  obtain ⟨hin, hmt, hw, hlen, hrowlen, hentry⟩ := h
  dsimp only at hin hmt hw hlen hrowlen hentry
  subst hin
  subst hmt
  subst hw
  unfold addMatchChar
  dsimp only
  by_cases ha : inp.length = 0
  · rw [if_pos ha]
    refine ⟨rfl, rfl, rfl, hlen, ?_, ?_⟩
    · intro r' hr'
      exact absurd hr' (by omega)
    · intro r' idx hr' hidx
      exact absurd hr' (by omega)
  · rw [if_neg ha]
    have hmid : MidCol inp mtc ch w0 (mtc.length - w0)
        ⟨rows, w0, inp, mtc ++ [ch]⟩ := by
      refine ⟨rfl, rfl, rfl, hlen, hrowlen, ?_⟩
      intro r' idx hr' hidx
      have he := hentry r' idx hr' hidx
      unfold entryAt at he
      unfold entryAt
      dsimp only at he
      dsimp only
      rw [he]
      by_cases htc : (idx:ℤ) + r' - w0 = (mtc.length:ℤ)
      · rw [if_pos htc]
        unfold goodEntry
        rw [if_neg (by omega), if_neg (by omega)]
      · rw [if_neg htc]
    by_cases hdeg :
        min ((inp.length:ℤ) - 1) ((mtc.length:ℤ) + w0) < ((mtc.length - w0 : ℕ) : ℤ) - 1
    · have hcnt : ((min ((inp.length:ℤ) - 1) ((mtc.length:ℤ) + w0)) -
          ((mtc.length - w0 : ℕ) : ℤ) + 1).toNat = 0 := by
        omega
      rw [hcnt]
      obtain ⟨hin1, hmt1, hw1, hlen1, hrowlen1, hent1⟩ := hmid
      show GoodState ⟨rows, w0, inp, mtc ++ [ch]⟩ inp (mtc++[ch]) w0
      refine ⟨rfl, rfl, rfl, hlen, hrowlen1, ?_⟩
      intro r' idx hr' hidx
      have he := hent1 r' idx hr' hidx
      rw [he]
      by_cases htc : (idx:ℤ) + r' - w0 = (mtc.length:ℤ)
      · exfalso
        omega
      · rw [if_neg htc]
        rw [goodEntry_stable_match inp mtc ch w0 r' idx hr' htc]
    · exact fillCol_good inp mtc ch w0 _ _ _ hmid (le_refl _) (by omega)

/-! ### Builds from instruction lists -/

theorem good_emptyCalc (w : ℕ) : GoodState (emptyCalc w) [] [] w := by
  refine ⟨rfl, rfl, rfl, rfl, ?_, ?_⟩
  · intro r hr
    exact absurd hr (by simp)
  · intro r idx hr hidx
    exact absurd hr (by simp)

theorem buildOps_good (w : ℕ) :
    ∀ (L : List Op) (S : Calc) (a b : List Char), GoodState S a b w →
      GoodState (L.foldl applyOp S) (a ++ opsInput L) (b ++ opsMatch L) w := by
  intro L
  induction L with
  | nil =>
    intro S a b h
    simpa [opsInput, opsMatch] using h
  | cons op L ih =>
    intro S a b h
    cases op with
    | inp c =>
      have h2 := ih (addInputChar S c) (a ++ [c]) b (good_addInputChar h c)
      simpa [opsInput, opsMatch, List.foldl_cons, applyOp, List.append_assoc] using h2
    | mtc c =>
      have h2 := ih (addMatchChar S c) a (b ++ [c]) (good_addMatchChar h c)
      simpa [opsInput, opsMatch, List.foldl_cons, applyOp, List.append_assoc] using h2

/-- Any interleaving of appends at width `w` yields a good snapshot. -/
theorem buildOps_goodState (w : ℕ) (L : List Op) :
    GoodState (buildOps w L) (opsInput L) (opsMatch L) w := by
  have h := buildOps_good w L (emptyCalc w) [] [] (good_emptyCalc w)
  simpa [buildOps] using h

theorem opsInput_append (L1 L2 : List Op) :
    opsInput (L1 ++ L2) = opsInput L1 ++ opsInput L2 := by
  induction L1 with
  | nil => rfl
  | cons op L ih =>
    cases op <;> simp [opsInput, ih]

theorem opsMatch_append (L1 L2 : List Op) :
    opsMatch (L1 ++ L2) = opsMatch L1 ++ opsMatch L2 := by
  induction L1 with
  | nil => rfl
  | cons op L ih =>
    cases op <;> simp [opsMatch, ih]

theorem opsInput_map_inp (a : List Char) : opsInput (a.map Op.inp) = a := by
  induction a with
  | nil => rfl
  | cons c a ih => simp [opsInput, ih]

theorem opsInput_map_mtc (b : List Char) : opsInput (b.map Op.mtc) = [] := by
  induction b with
  | nil => rfl
  | cons c b ih => simp [opsInput, ih]

theorem opsMatch_map_inp (a : List Char) : opsMatch (a.map Op.inp) = [] := by
  induction a with
  | nil => rfl
  | cons c a ih => simp [opsMatch, ih]

theorem opsMatch_map_mtc (b : List Char) : opsMatch (b.map Op.mtc) = b := by
  induction b with
  | nil => rfl
  | cons c b ih => simp [opsMatch, ih]

/-- The canonical build is good. -/
theorem build_good (a b : List Char) (w : ℕ) : GoodState (build a b w) a b w := by
  have h := buildOps_goodState w (a.map Op.inp ++ b.map Op.mtc)
  rw [opsInput_append, opsMatch_append, opsInput_map_inp, opsInput_map_mtc,
    opsMatch_map_inp, opsMatch_map_mtc, List.append_nil, List.nil_append] at h
  exact h

/-- The heuristic final cost of any interleaved build is the reference read at
the final corner: it depends only on the two sequences and the width. -/
theorem buildOps_heuristic (w : ℕ) (L : List Op) :
    getHeuristicFinalCost (buildOps w L) =
      vRead (opsInput L) (opsMatch L) w (((opsInput L).length : ℤ) - 1)
        (((opsMatch L).length : ℤ) - 1) := by
  have h := buildOps_goodState w L
  unfold getHeuristicFinalCost
  rw [h.1, h.2.1]
  exact good_read h _ _

theorem build_heuristic (a b : List Char) (w : ℕ) :
    getHeuristicFinalCost (build a b w) =
      vRead a b w ((a.length : ℤ) - 1) ((b.length : ℤ) - 1) := by
  have h := build_good a b w
  unfold getHeuristicFinalCost
  rw [h.1, h.2.1]
  exact good_read h _ _

/-- Full-band irrelevance: once the band contains the whole matrix, its exact
width no longer matters. -/
theorem vCellAux_full (a b : List Char) {W1 W2 : ℕ}
    (h1 : a.length + b.length ≤ W1) (h2 : a.length + b.length ≤ W2) :
    ∀ F r c, r < a.length → c < b.length →
      vCellAux a b W1 F r c = vCellAux a b W2 F r c := by
  intro F
  induction F with
  | zero => intro r c _ _; rfl
  | succ F ih =>
    intro r c hr hc
    show dlBody _ _ _ _ _ = dlBody _ _ _ _ _
    refine dlBody_congr (fun i j hi hj hsum => ?_)
    unfold vReadWith
    split
    · rfl
    · next hneg =>
      by_cases hlen : (a.length : ℤ) ≤ i ∨ (b.length : ℤ) ≤ j
      · rw [if_pos (by tauto), if_pos (by tauto)]
      · rw [if_neg (by omega), if_neg (by omega)]
        exact ih i.toNat j.toNat (by omega) (by omega)

theorem vRead_full (a b : List Char) {W1 W2 : ℕ}
    (h1 : a.length + b.length ≤ W1) (h2 : a.length + b.length ≤ W2) (i j : ℤ) :
    vRead a b W1 i j = vRead a b W2 i j := by
  unfold vRead vReadWith
  split
  · rfl
  · next hneg =>
    by_cases hlen : (a.length : ℤ) ≤ i ∨ (b.length : ℤ) ≤ j
    · rw [if_pos (by tauto), if_pos (by tauto)]
    · rw [if_neg (by omega), if_neg (by omega)]
      exact vCellAux_full a b h1 h2 _ i.toNat j.toNat (by omega) (by omega)

/-- The reference distance is a lower bound for every banded read at the final
corner. -/
theorem dlRef_le_vRead (a b : List Char) (w : ℕ) :
    dlRef a b ≤ vRead a b w ((a.length : ℤ) - 1) ((b.length : ℤ) - 1) := by
  unfold dlRef
  by_cases hw : w ≤ a.length + b.length
  · exact vRead_anti a b hw _ _
  · rw [@vRead_full a b (a.length + b.length) w (le_refl _) (by omega) _ _]

/-! ### Widening only lowers stored values

`RowsLE cur orig` : same shape, pointwise `≤` on every slot.  Every write of
`propagateUpdateFrom` is guarded by strict improvement, so propagation only
lowers the matrix; the row-extension of `increaseMaxDistance` then embeds the
(possibly lowered) old row shifted by one slot. -/

def RowsLE (cur orig : List (List Cost)) : Prop :=
  cur.length = orig.length ∧
  ∀ r, (cur.getD r []).length = (orig.getD r []).length ∧
    ∀ i, (cur.getD r []).getD i ⊤ ≤ (orig.getD r []).getD i ⊤

theorem RowsLE_refl (rows : List (List Cost)) : RowsLE rows rows :=
  ⟨rfl, fun _ => ⟨rfl, fun _ => le_refl _⟩⟩

theorem RowsLE_trans {r1 r2 r3 : List (List Cost)} (h1 : RowsLE r1 r2) (h2 : RowsLE r2 r3) :
    RowsLE r1 r3 := by
  refine ⟨h1.1.trans h2.1, fun r => ⟨(h1.2 r).1.trans (h2.2 r).1, fun i => ?_⟩⟩
  exact le_trans ((h1.2 r).2 i) ((h2.2 r).2 i)

/-- Relation between two calculation states: same everything except a pointwise
lowered matrix. -/
def CalcLE (X Y : Calc) : Prop :=
  X.diagonalWidth = Y.diagonalWidth ∧ X.inputSequence = Y.inputSequence ∧
  X.matchSequence = Y.matchSequence ∧ RowsLE X.resolvedDistances Y.resolvedDistances

theorem CalcLE_refl (X : Calc) : CalcLE X X := ⟨rfl, rfl, rfl, RowsLE_refl _⟩

theorem CalcLE_trans {X Y Z : Calc} (h1 : CalcLE X Y) (h2 : CalcLE Y Z) : CalcLE X Z :=
  ⟨h1.1.trans h2.1, h1.2.1.trans h2.2.1, h1.2.2.1.trans h2.2.2.1,
    RowsLE_trans h1.2.2.2 h2.2.2.2⟩

theorem getD_eq_of_getElem? {α : Type} {l : List α} {r : ℕ} {x d : α}
    (h : l[r]? = some x) : l.getD r d = x := by
  rw [List.getD_eq_getElem?_getD, h]
  rfl

theorem RowsLE_write {rows : List (List Cost)} {r idx : ℕ} {row : List Cost} {v u : Cost}
    (hrow : rows[r]? = some row) (hu : row[idx]? = some u) (hv : v ≤ u) :
    RowsLE (rows.set r (row.set idx v)) rows := by
  have hrl : r < rows.length := by
    by_contra hc
    rw [List.getElem?_eq_none (by omega)] at hrow
    exact Option.noConfusion hrow
  have hil : idx < row.length := by
    by_contra hc
    rw [List.getElem?_eq_none (by omega)] at hu
    exact Option.noConfusion hu
  have hgd : rows.getD r [] = row := getD_eq_of_getElem? hrow
  refine ⟨by simp, fun r' => ?_⟩
  by_cases hrr : r' = r
  · subst hrr
    rw [getD_eq_of_getElem? (List.getElem?_set_eq hrl), hgd]
    refine ⟨by simp, fun i => ?_⟩
    by_cases hii : i = idx
    · subst hii
      rw [List.getD_eq_getElem?_getD, List.getElem?_set_eq (by omega),
        List.getD_eq_getElem?_getD, hu]
      exact hv
    · rw [List.getD_eq_getElem?_getD, List.getElem?_set_ne (fun he => hii he.symm),
        ← List.getD_eq_getElem?_getD]
  · have heq : (rows.set r (row.set idx v)).getD r' [] = rows.getD r' [] := by
      rw [List.getD_eq_getElem?_getD, List.getElem?_set_ne (fun he => hrr he.symm),
        ← List.getD_eq_getElem?_getD]
    rw [heq]
    exact ⟨rfl, fun i => le_refl _⟩

/-- `propagateUpdateFrom` only lowers the matrix (any fuel). -/
theorem propagate_calcLE :
    ∀ (fuel : ℕ) (B : Calc) (r c : ℤ) (v : Cost) (d : ℤ) (B' : Calc),
      propagateUpdateFrom fuel B r c v d = some B' → CalcLE B' B := by
  intro fuel
  induction fuel with
  | zero =>
    intro B r c v d B' h
    exact Option.noConfusion h
  | succ fuel ih =>
    intro B r c v d B' h
    rw [propagateUpdateFrom] at h
    cases hrow : (if 0 ≤ r then B.resolvedDistances[r.toNat]? else none) with
    | none =>
      rw [hrow] at h
      cases h
      exact CalcLE_refl _
    | some row =>
      rw [hrow] at h
      dsimp only at h
      cases hslot : (if 0 ≤ d then row[d.toNat]? else none) with
      | none =>
        rw [hslot] at h
        cases h
        exact CalcLE_refl _
      | some stored =>
        rw [hslot] at h
        dsimp only at h
        by_cases hlt : v < stored
        · rw [if_pos hlt] at h
          simp only [Option.bind_eq_some] at h
          obtain ⟨B1, h1, B2, h2, B3, h3, h4⟩ := h
          have hr0 : 0 ≤ r := by
            by_contra hc
            rw [if_neg hc] at hrow
            exact Option.noConfusion hrow
          have hd0 : 0 ≤ d := by
            by_contra hc
            rw [if_neg hc] at hslot
            exact Option.noConfusion hslot
          rw [if_pos hr0] at hrow
          rw [if_pos hd0] at hslot
          have hW : CalcLE
              { B with resolvedDistances :=
                  B.resolvedDistances.set r.toNat (row.set d.toNat v) } B :=
            ⟨rfl, rfl, rfl, RowsLE_write hrow hslot (le_of_lt hlt)⟩
          have hs1 : CalcLE B1
              { B with resolvedDistances :=
                  B.resolvedDistances.set r.toNat (row.set d.toNat v) } := by
            revert h1
            split
            · intro h1
              exact ih _ _ _ _ _ _ h1
            · intro h1
              cases h1
              exact CalcLE_refl _
          have hs2 : CalcLE B2 B1 := by
            revert h2
            split
            · intro h2
              exact ih _ _ _ _ _ _ h2
            · intro h2
              cases h2
              exact CalcLE_refl _
          have hs3 : CalcLE B3 B2 := by
            revert h3
            split
            · intro h3
              exact ih _ _ _ _ _ _ h3
            · intro h3
              cases h3
              exact CalcLE_refl _
          have hs4 : CalcLE B' B3 := by
            revert h4
            split
            · intro h4
              exact ih _ _ _ _ _ _ h4
            · intro h4
              cases h4
              exact CalcLE_refl _
          exact CalcLE_trans hs4 (CalcLE_trans hs3 (CalcLE_trans hs2 (CalcLE_trans hs1 hW)))
        · rw [if_neg hlt] at h
          cases h
          exact CalcLE_refl _

theorem forTransLoop_calcLE {fuel startPos : ℕ} {fixedChar : Option Char}
    {lookup : List Char} {closure : ℕ → Calc → ℕ → ℕ → Option Calc}
    (hcl : ∀ f B ax d B', closure f B ax d = some B' → CalcLE B' B) :
    ∀ (cnt dIdx : ℕ) (B B' : Calc),
      forTransLoop fuel startPos fixedChar lookup closure dIdx cnt B = some B' →
      CalcLE B' B := by
  intro cnt
  induction cnt with
  | zero =>
    intro dIdx B B' h
    cases h
    exact CalcLE_refl _
  | succ k ih =>
    intro dIdx B B' h
    rw [forTransLoop] at h
    rw [Option.bind_eq_some] at h
    obtain ⟨B1, h1, h2⟩ := h
    refine CalcLE_trans (ih _ _ _ h2) ?_
    revert h1
    split
    · intro h1
      exact hcl _ _ _ _ _ h1
    · intro h1
      cases h1
      exact CalcLE_refl _

theorem forPossibleTrans_calcLE {fuel : ℕ} {B : Calc} {startPos : ℕ}
    {fixedChar : Option Char} {lookup : List Char}
    {closure : ℕ → Calc → ℕ → ℕ → Option Calc} {B' : Calc}
    (hcl : ∀ f B ax d B', closure f B ax d = some B' → CalcLE B' B)
    (h : forPossibleTrans fuel B startPos fixedChar lookup closure = some B') :
    CalcLE B' B := by
  unfold forPossibleTrans at h
  exact forTransLoop_calcLE hcl _ _ _ _ h

theorem widenLeftBlock_calcLE {fuel wNew r : ℕ} {B : Calc} {p : Calc × Cost}
    (h : widenLeftBlock fuel wNew r B = some p) : CalcLE p.1 B := by
  unfold widenLeftBlock at h
  revert h
  split
  · dsimp only
    intro h
    rw [Option.map_eq_some'] at h
    obtain ⟨B1, hB1, hpe⟩ := h
    rw [← hpe]
    dsimp only
    revert hB1
    split
    · intro hB1
      rw [Option.bind_eq_some] at hB1
      obtain ⟨Bm, hBm, hB1⟩ := hB1
      refine CalcLE_trans ?_ (propagate_calcLE _ _ _ _ _ _ _ hBm)
      revert hB1
      split
      · intro hB1
        exact forPossibleTrans_calcLE
          (fun f Bx ax d Bx' hx => propagate_calcLE _ _ _ _ _ _ _ hx) hB1
      · intro hB1
        cases hB1
        exact CalcLE_refl _
    · intro hB1
      cases hB1
      exact CalcLE_refl _
  · intro h
    cases h
    exact CalcLE_refl _

theorem widenRightBlock_calcLE {fuel wOld wNew r : ℕ} {B1 : Calc} {q : Calc × Cost}
    (h : widenRightBlock fuel wOld wNew r B1 = some q) : CalcLE q.1 B1 := by
  unfold widenRightBlock at h
  revert h
  dsimp only
  split
  · intro h
    rw [Option.map_eq_some'] at h
    obtain ⟨B2, hB2, hqe⟩ := h
    rw [← hqe]
    dsimp only
    revert hB2
    split
    · intro hB2
      rw [Option.bind_eq_some] at hB2
      obtain ⟨Bm, hBm, hB2⟩ := hB2
      refine CalcLE_trans ?_ (propagate_calcLE _ _ _ _ _ _ _ hBm)
      revert hB2
      split
      · intro hB2
        exact forPossibleTrans_calcLE
          (fun f Bx ax d Bx' hx => propagate_calcLE _ _ _ _ _ _ _ hx) hB2
      · intro hB2
        cases hB2
        exact CalcLE_refl _
    · intro hB2
      cases hB2
      exact CalcLE_refl _
  · intro h
    cases h
    exact CalcLE_refl _

/-- Shape of one widen row step: some propagation-lowered state with row `r`
replaced by its one-slot-shifted extension. -/
theorem widenRowStep_spec {fuel wOld r : ℕ} {B B' : Calc}
    (h : widenRowStep fuel wOld r B = some B') :
    ∃ (B2 : Calc) (x y : Cost), CalcLE B2 B ∧
      B' = { B2 with resolvedDistances :=
               B2.resolvedDistances.set r (x :: B2.resolvedDistances.getD r [] ++ [y]) } := by
  unfold widenRowStep at h
  rw [Option.bind_eq_some] at h
  obtain ⟨p, hp, h⟩ := h
  rw [Option.bind_eq_some] at h
  obtain ⟨q, hq, h⟩ := h
  cases h
  exact ⟨q.1, p.2, q.2,
    CalcLE_trans (widenRightBlock_calcLE hq) (widenLeftBlock_calcLE hp), rfl⟩

/-- The mixed-format invariant during the widen row loop: rows before `k` are
extended (old slot `i` now at `i+1`, only lowered), rows from `k` on are still
old-format (only lowered). -/
def WRel (orig : List (List Cost)) (k : ℕ) (cur : List (List Cost)) : Prop :=
  cur.length = orig.length ∧
  ∀ r, (r < k → (cur.getD r []).length = (orig.getD r []).length + 2 ∧
          ∀ i, i < (orig.getD r []).length →
            (cur.getD r []).getD (i+1) ⊤ ≤ (orig.getD r []).getD i ⊤) ∧
       (k ≤ r → (cur.getD r []).length = (orig.getD r []).length ∧
          ∀ i, (cur.getD r []).getD i ⊤ ≤ (orig.getD r []).getD i ⊤)

theorem WRel_zero (orig : List (List Cost)) : WRel orig 0 orig := by
  refine ⟨rfl, fun r => ⟨fun hr => absurd hr (by omega), fun _ => ⟨rfl, fun i => le_refl _⟩⟩⟩

theorem WRel_of_RowsLE {orig cur cur' : List (List Cost)} {k : ℕ}
    (hw : WRel orig k cur) (hle : RowsLE cur' cur) : WRel orig k cur' := by
  refine ⟨hle.1.trans hw.1, fun r => ⟨fun hr => ?_, fun hr => ?_⟩⟩
  · obtain ⟨hl, he⟩ := (hw.2 r).1 hr
    exact ⟨(hle.2 r).1.trans hl, fun i hi => le_trans ((hle.2 r).2 (i+1)) (he i hi)⟩
  · obtain ⟨hl, he⟩ := (hw.2 r).2 hr
    exact ⟨(hle.2 r).1.trans hl, fun i => le_trans ((hle.2 r).2 i) (he i)⟩

theorem cons_append_getD_succ (x y : Cost) (l : List Cost) (i : ℕ) (hi : i < l.length) :
    (x :: l ++ [y]).getD (i+1) ⊤ = l.getD i ⊤ := by
  rw [List.getD_eq_getElem?_getD,
    show x :: l ++ [y] = (x :: l) ++ [y] from rfl,
    List.getElem?_append_left (by simp; omega)]
  simp [List.getD_eq_getElem?_getD]

theorem WRel_extend {orig cur : List (List Cost)} {k : ℕ} (hw : WRel orig k cur)
    (hk : k < cur.length) (x y : Cost) :
    WRel orig (k+1) (cur.set k (x :: cur.getD k [] ++ [y])) := by
  refine ⟨by rw [List.length_set]; exact hw.1, fun r => ⟨fun hr => ?_, fun hr => ?_⟩⟩
  · by_cases hrk : r = k
    · subst hrk
      rw [getD_eq_of_getElem? (List.getElem?_set_eq hk)]
      obtain ⟨hl, he⟩ := (hw.2 r).2 (le_refl r)
      constructor
      · simp only [List.length_cons, List.length_append, List.length_nil]
        omega
      · intro i hi
        rw [cons_append_getD_succ _ _ _ _ (by omega)]
        exact he i
    · have hgd : (cur.set k (x :: cur.getD k [] ++ [y])).getD r [] = cur.getD r [] := by
        rw [List.getD_eq_getElem?_getD, List.getElem?_set_ne (fun he => hrk he.symm),
          ← List.getD_eq_getElem?_getD]
      rw [hgd]
      exact (hw.2 r).1 (by omega)
  · have hgd : (cur.set k (x :: cur.getD k [] ++ [y])).getD r [] = cur.getD r [] := by
      rw [List.getD_eq_getElem?_getD, List.getElem?_set_ne (by omega),
        ← List.getD_eq_getElem?_getD]
    rw [hgd]
    exact (hw.2 r).2 (by omega)

/-- Running the widen row loop to the end turns an all-old-format state into an
all-extended state, never raising any surviving slot. -/
theorem widenLoop_spec (fuel wOld : ℕ) :
    ∀ (cnt r : ℕ) (B B' : Calc) (orig : List (List Cost)),
      widenLoop fuel wOld r cnt B = some B' →
      WRel orig r B.resolvedDistances →
      r + cnt = orig.length →
      B'.diagonalWidth = B.diagonalWidth ∧ B'.inputSequence = B.inputSequence ∧
        B'.matchSequence = B.matchSequence ∧ WRel orig orig.length B'.resolvedDistances := by
  intro cnt
  induction cnt with
  | zero =>
    intro r B B' orig h hw hr
    cases h
    refine ⟨rfl, rfl, rfl, ?_⟩
    rw [← hr]
    simpa using hw
  | succ k ih =>
    intro r B B' orig h hw hr
    rw [widenLoop] at h
    rw [Option.bind_eq_some] at h
    obtain ⟨B1, h1, h2⟩ := h
    obtain ⟨B2, x, y, hle, he⟩ := widenRowStep_spec h1
    have hw2 : WRel orig r B2.resolvedDistances := WRel_of_RowsLE hw hle.2.2.2
    have hrlen : r < B2.resolvedDistances.length := by
      rw [hw2.1]
      omega
    have hw1 : WRel orig (r+1) B1.resolvedDistances := by
      rw [he]
      exact WRel_extend hw2 hrlen x y
    obtain ⟨ha1, ha2, ha3, ha4⟩ := ih (r+1) B1 B' orig h2 hw1 (by omega)
    have hB1B2 : B1.diagonalWidth = B2.diagonalWidth ∧ B1.inputSequence = B2.inputSequence ∧
        B1.matchSequence = B2.matchSequence := by
      rw [he]
      exact ⟨rfl, rfl, rfl⟩
    refine ⟨?_, ?_, ?_, ha4⟩
    · rw [ha1, hB1B2.1, hle.1]
    · rw [ha2, hB1B2.2.1, hle.2.1]
    · rw [ha3, hB1B2.2.2, hle.2.2.1]

theorem getCostAtW_eq_getD {S : Calc} {width : ℕ} {i j : ℤ} (hi : 0 ≤ i) (hj : 0 ≤ j)
    (hb : ¬(j - i + (width:ℤ) < 0 ∨ 2*(width:ℤ) < j - i + width))
    (hrow : i.toNat < S.resolvedDistances.length) :
    getCostAtW S width i j =
      (S.resolvedDistances.getD i.toNat []).getD (j - i + (width:ℤ)).toNat ⊤ := by
  unfold getCostAtW
  rw [if_neg (by omega), if_neg hb, getD_of_lt S.resolvedDistances [] i.toNat hrow,
    Option.some_bind]
  rw [List.getD_eq_getElem?_getD, List.getD_eq_getElem?_getD]

theorem getCostAtW_top_of_ge {S : Calc} {width : ℕ} {i j : ℤ} (hi : 0 ≤ i) (hj : 0 ≤ j)
    (hrow : S.resolvedDistances.length ≤ i.toNat) :
    getCostAtW S width i j = ⊤ := by
  unfold getCostAtW
  rw [if_neg (by omega)]
  split
  · rfl
  · rw [List.getElem?_eq_none (by omega)]
    rfl

/-- `increaseMaxDistance` on a snapshot whose row count matches its input length:
either the trivial early return, or the row loop ending in the extended format. -/
theorem increase_spec {fuel : ℕ} {S S' : Calc}
    (hm : S.resolvedDistances.length = S.inputSequence.length)
    (h : increaseMaxDistance fuel S = some S') :
    S'.diagonalWidth = S.diagonalWidth + 1 ∧ S'.inputSequence = S.inputSequence ∧
      S'.matchSequence = S.matchSequence ∧
      ((S.inputSequence.length < 1 ∨ S.matchSequence.length < 1) ∧
          S'.resolvedDistances = S.resolvedDistances ∨
        WRel S.resolvedDistances S.resolvedDistances.length S'.resolvedDistances) := by
  unfold increaseMaxDistance at h
  revert h
  dsimp only
  split
  · next hcond =>
    intro h
    cases h
    exact ⟨rfl, rfl, rfl, Or.inl ⟨hcond, rfl⟩⟩
  · next hcond =>
    intro h
    have hs := widenLoop_spec fuel S.diagonalWidth S.inputSequence.length 0
      { S with diagonalWidth := S.diagonalWidth + 1 } S' S.resolvedDistances h
      (WRel_zero _) (by omega)
    exact ⟨hs.1, hs.2.1, hs.2.2.1, Or.inr hs.2.2.2⟩

/-- After widening a built snapshot, every read is at most what it was before
(claim C4's cell-wise monotonicity). -/
theorem widen_pointwise_le {a b : List Char} {w fuel : ℕ} {S' : Calc}
    (h : increaseMaxDistance fuel (build a b w) = some S') (i j : ℤ) :
    getCostAt S' i j ≤ getCostAt (build a b w) i j := by
  have hg := build_good a b w
  obtain ⟨hin, hmt, hw, hlen, hrowlen, hentry⟩ := hg
  obtain ⟨hw', hin', hmt', hcase⟩ := increase_spec (by rw [hlen, hin]) h
  unfold getCostAt
  rw [hw', hw]
  by_cases hneg : i < 0 ∨ j < 0
  · unfold getCostAtW
    rw [if_pos hneg, if_pos hneg]
  · by_cases hb1 : j - i + ((w:ℤ)+1) < 0 ∨ 2*((w:ℤ)+1) < j - i + ((w:ℤ)+1)
    · have hS2 : getCostAtW S' (w+1) i j = ⊤ := by
        unfold getCostAtW
        rw [if_neg hneg, if_pos (by push_cast; omega)]
      have hS1 : getCostAtW (build a b w) w i j = ⊤ := by
        unfold getCostAtW
        rw [if_neg hneg, if_pos (by omega)]
      rw [hS2, hS1]
    · rcases hcase with ⟨hdeg, hrows⟩ | hwrel
      · rw [hin, hmt] at hdeg
        rcases hdeg with hdm | hdn
        · rw [getCostAtW_top_of_ge (by omega) (by omega) (by rw [hrows]; omega)]
          rw [getCostAtW_top_of_ge (by omega) (by omega) (by omega)]
        · by_cases hi : i.toNat < (build a b w).resolvedDistances.length
          · have htopS : getCostAtW (build a b w) w i j = ⊤ := by
              by_cases hb0 : j - i + (w:ℤ) < 0 ∨ 2*(w:ℤ) < j - i + w
              · unfold getCostAtW
                rw [if_neg hneg, if_pos hb0]
              · rw [getCostAtW_eq_getD (by omega) (by omega) hb0 hi]
                have he := hentry i.toNat (j - i + (w:ℤ)).toNat (by omega) (by omega)
                unfold entryAt at he
                unfold goodEntry at he
                rw [if_neg (by omega)] at he
                rw [List.getD_eq_getElem?_getD, he]
                rfl
            rw [htopS]
            exact le_top
          · rw [getCostAtW_top_of_ge (by omega) (by omega) (by rw [hrows]; omega)]
            rw [getCostAtW_top_of_ge (by omega) (by omega) (by omega)]
      · by_cases hi : i.toNat < (build a b w).resolvedDistances.length
        · have hi' : i.toNat < S'.resolvedDistances.length := by
            rw [hwrel.1]
            omega
          obtain ⟨hlext, hent⟩ := (hwrel.2 i.toNat).1 (by omega)
          rw [getCostAtW_eq_getD (by omega) (by omega) (by push_cast; omega) hi']
          by_cases hb0 : j - i + (w:ℤ) < 0 ∨ 2*(w:ℤ) < j - i + w
          · have hS1 : getCostAtW (build a b w) w i j = ⊤ := by
              unfold getCostAtW
              rw [if_neg hneg, if_pos hb0]
            rw [hS1]
            exact le_top
          · rw [getCostAtW_eq_getD (by omega) (by omega) hb0 hi]
            have hrl := hrowlen i.toNat (by omega)
            have hix : (j - i + (((w+1:ℕ)):ℤ)).toNat = (j - i + (w:ℤ)).toNat + 1 := by
              push_cast
              omega
            rw [hix]
            exact hent (j - i + (w:ℤ)).toNat (by omega)
        · rw [getCostAtW_top_of_ge (by omega) (by omega) (by rw [hwrel.1]; omega)]
          rw [getCostAtW_top_of_ge (by omega) (by omega) (by omega)]

/-! ### Termination of the propagation recursion

Measure: lexicographically, the number of sentinel slots (writes can only turn
`⊤` into a finite value, never back), then the sum of the finite slot values
(every other effective write strictly lowers one finite slot).  Every recursive
call of `propagateUpdateFrom` is preceded by an effective write, so the measure
strictly decreases along the recursion. -/

/-- Numeric value of a finite slot (sentinels count zero). -/
def costFin : Cost → ℕ
  | ⊤ => 0
  | (n : ℕ) => n

theorem costFin_coe (n : ℕ) : costFin (n : Cost) = n := rfl

/-- Number of sentinel slots in a row. -/
def rowTop (row : List Cost) : ℕ := row.countP (fun v => decide (v = ⊤))

/-- Sum of the finite slot values of a row. -/
def rowSum (row : List Cost) : ℕ := (row.map costFin).sum

/-- Number of sentinel slots in the matrix. -/
def topCount (rows : List (List Cost)) : ℕ := (rows.map rowTop).sum

/-- Sum of the finite slot values of the matrix. -/
def finSum (rows : List (List Cost)) : ℕ := (rows.map rowSum).sum

/-- Strict lexicographic order on the measure. -/
def lexLT (p q : ℕ × ℕ) : Prop := p.1 < q.1 ∨ (p.1 = q.1 ∧ p.2 < q.2)

/-- Lax lexicographic order on the measure. -/
def lexLE (p q : ℕ × ℕ) : Prop := p.1 < q.1 ∨ (p.1 = q.1 ∧ p.2 ≤ q.2)

theorem lexLE_refl (p : ℕ × ℕ) : lexLE p p := Or.inr ⟨rfl, le_refl _⟩

theorem lexLE_trans {p q r : ℕ × ℕ} (h1 : lexLE p q) (h2 : lexLE q r) : lexLE p r := by
  unfold lexLE at h1 h2 ⊢
  omega

theorem lexLT_of_lexLE_of_lexLT {p q r : ℕ × ℕ} (h1 : lexLE p q) (h2 : lexLT q r) :
    lexLT p r := by
  unfold lexLE at h1
  unfold lexLT at h2 ⊢
  omega

theorem lexLE_of_lexLT {p q : ℕ × ℕ} (h : lexLT p q) : lexLE p q := by
  unfold lexLT at h
  unfold lexLE
  omega

/-- The measure of a calculation state. -/
def measureOf (B : Calc) : ℕ × ℕ :=
  (topCount B.resolvedDistances, finSum B.resolvedDistances)

theorem rowTop_set (row : List Cost) :
    ∀ (idx : ℕ) (u v : Cost), row[idx]? = some u →
      rowTop (row.set idx v) + (if u = ⊤ then 1 else 0) =
        rowTop row + (if v = ⊤ then 1 else 0) := by
  induction row with
  | nil =>
    intro idx u v hu
    simp at hu
  | cons x rest ih =>
    intro idx u v hu
    cases idx with
    | zero =>
      simp only [List.getElem?_cons_zero, Option.some_inj] at hu
      subst hu
      simp only [List.set_cons_zero]
      unfold rowTop
      rw [List.countP_cons, List.countP_cons]
      by_cases hv : v = ⊤ <;> by_cases hx : x = ⊤ <;>
        simp [hv, hx]
    | succ idx =>
      simp only [List.getElem?_cons_succ] at hu
      have := ih idx u v hu
      simp only [List.set_cons_succ]
      unfold rowTop
      rw [List.countP_cons, List.countP_cons]
      unfold rowTop at this
      omega

theorem rowSum_set (row : List Cost) :
    ∀ (idx : ℕ) (u v : Cost), row[idx]? = some u →
      rowSum (row.set idx v) + costFin u = rowSum row + costFin v := by
  induction row with
  | nil =>
    intro idx u v hu
    simp at hu
  | cons x rest ih =>
    intro idx u v hu
    cases idx with
    | zero =>
      simp only [List.getElem?_cons_zero, Option.some_inj] at hu
      subst hu
      simp only [List.set_cons_zero]
      unfold rowSum
      simp only [List.map_cons, List.sum_cons]
      omega
    | succ idx =>
      simp only [List.getElem?_cons_succ] at hu
      have := ih idx u v hu
      simp only [List.set_cons_succ]
      unfold rowSum
      simp only [List.map_cons, List.sum_cons]
      unfold rowSum at this
      omega

theorem topCount_set (rows : List (List Cost)) :
    ∀ (r : ℕ) (row row' : List Cost), rows[r]? = some row →
      topCount (rows.set r row') + rowTop row = topCount rows + rowTop row' := by
  induction rows with
  | nil =>
    intro r row row' hrow
    simp at hrow
  | cons x rest ih =>
    intro r row row' hrow
    cases r with
    | zero =>
      simp only [List.getElem?_cons_zero, Option.some_inj] at hrow
      subst hrow
      simp only [List.set_cons_zero]
      unfold topCount
      simp only [List.map_cons, List.sum_cons]
      omega
    | succ r =>
      simp only [List.getElem?_cons_succ] at hrow
      have := ih r row row' hrow
      simp only [List.set_cons_succ]
      unfold topCount
      simp only [List.map_cons, List.sum_cons]
      unfold topCount at this
      omega

theorem finSum_set (rows : List (List Cost)) :
    ∀ (r : ℕ) (row row' : List Cost), rows[r]? = some row →
      finSum (rows.set r row') + rowSum row = finSum rows + rowSum row' := by
  induction rows with
  | nil =>
    intro r row row' hrow
    simp at hrow
  | cons x rest ih =>
    intro r row row' hrow
    cases r with
    | zero =>
      simp only [List.getElem?_cons_zero, Option.some_inj] at hrow
      subst hrow
      simp only [List.set_cons_zero]
      unfold finSum
      simp only [List.map_cons, List.sum_cons]
      omega
    | succ r =>
      simp only [List.getElem?_cons_succ] at hrow
      have := ih r row row' hrow
      simp only [List.set_cons_succ]
      unfold finSum
      simp only [List.map_cons, List.sum_cons]
      unfold finSum at this
      omega

/-- An effective write (strictly smaller value into an existing slot) strictly
decreases the lexicographic measure. -/
theorem measure_write_lt {rows : List (List Cost)} {r idx : ℕ} {row : List Cost} {u v : Cost}
    (hrow : rows[r]? = some row) (hu : row[idx]? = some u) (hv : v < u) :
    lexLT (topCount (rows.set r (row.set idx v)), finSum (rows.set r (row.set idx v)))
      (topCount rows, finSum rows) := by
  have htc := topCount_set rows r row (row.set idx v) hrow
  have hfs := finSum_set rows r row (row.set idx v) hrow
  have hrt := rowTop_set row idx u v hu
  have hrs := rowSum_set row idx u v hu
  have hvne : v ≠ ⊤ := by
    intro he
    subst he
    exact absurd hv (by simp)
  by_cases hut : u = ⊤
  · rw [if_pos hut, if_neg hvne] at hrt
    left
    omega
  · rw [if_neg hut, if_neg hvne] at hrt
    right
    constructor
    · omega
    · have hlt : costFin v < costFin u := by
        cases u with
        | none => exact absurd rfl hut
        | some un =>
          cases v with
          | none => exact absurd rfl hvne
          | some vn => exact WithTop.coe_lt_coe.mp hv
      omega

/-- Transport of one guarded propagation step along any pointwise monotone
transformation of `propagateUpdateFrom` (used for fuel monotonicity). -/
theorem stepIf_mono {F Fb : ℕ} {cond : Prop} [Decidable cond] {X Y Bf : Calc}
    {r c : ℤ} {v : Cost} {d : ℤ}
    (mono : ∀ (X : Calc) (r c : ℤ) (v : Cost) (d : ℤ) (Bf : Calc),
      propagateUpdateFrom F X r c v d = some Bf → propagateUpdateFrom Fb X r c v d = some Bf)
    (h : (if cond then propagateUpdateFrom F X r c v d else some Y) = some Bf) :
    (if cond then propagateUpdateFrom Fb X r c v d else some Y) = some Bf := by
  by_cases hc : cond
  · rw [if_pos hc] at h ⊢
    exact mono _ _ _ _ _ _ h
  · rw [if_neg hc] at h ⊢
    exact h

/-- Adding one unit of fuel to a successful propagation run leaves the result
unchanged. -/
theorem propagate_fuel_succ :
    ∀ (fuel : ℕ) (B : Calc) (r c : ℤ) (v : Cost) (d : ℤ) (Bf : Calc),
      propagateUpdateFrom fuel B r c v d = some Bf →
      propagateUpdateFrom (fuel + 1) B r c v d = some Bf := by
  intro fuel
  induction fuel with
  | zero =>
    intro B r c v d Bf h
    exact Option.noConfusion h
  | succ fuel ih =>
    intro B r c v d Bf h
    rw [propagateUpdateFrom] at h
    show propagateUpdateFrom (Nat.succ (Nat.succ fuel)) B r c v d = some Bf
    rw [propagateUpdateFrom]
    cases hrow : (if 0 ≤ r then B.resolvedDistances[r.toNat]? else none) with
    | none =>
      rw [hrow] at h
      exact h
    | some row =>
      rw [hrow] at h
      dsimp only at h ⊢
      cases hslot : (if 0 ≤ d then row[d.toNat]? else none) with
      | none =>
        rw [hslot] at h
        exact h
      | some stored =>
        rw [hslot] at h
        dsimp only at h ⊢
        by_cases hlt : v < stored
        · rw [if_pos hlt] at h ⊢
          simp only [Option.bind_eq_some] at h ⊢
          obtain ⟨B1, h1, B2, h2, B3, h3, h4⟩ := h
          exact ⟨B1, stepIf_mono ih h1, B2, stepIf_mono ih h2,
                 B3, stepIf_mono ih h3, stepIf_mono ih h4⟩
        · rw [if_neg hlt] at h ⊢
          exact h

/-- Fuel monotonicity: a successful propagation run is reproduced verbatim by
any larger fuel budget. -/
theorem propagate_fuel_le :
    ∀ (Fb F : ℕ), F ≤ Fb → ∀ (B : Calc) (r c : ℤ) (v : Cost) (d : ℤ) (Bf : Calc),
      propagateUpdateFrom F B r c v d = some Bf →
      propagateUpdateFrom Fb B r c v d = some Bf := by
  intro Fb
  induction Fb with
  | zero =>
    intro F hF B r c v d Bf h
    have h0 : F = 0 := Nat.le_zero.mp hF
    subst h0
    exact h
  | succ Fb ih =>
    intro F hF B r c v d Bf h
    by_cases he : F = Fb + 1
    · subst he
      exact h
    · have h2 : F ≤ Fb := by omega
      exact propagate_fuel_succ _ _ _ _ _ _ _ (ih F h2 B r c v d Bf h)

/-- Fuel monotonicity transported through one guarded propagation step. -/
theorem stepIf_fuel_le {F Fb : ℕ} (hF : F ≤ Fb) {cond : Prop} [Decidable cond]
    {X Y Bf : Calc} {r c : ℤ} {v : Cost} {d : ℤ}
    (h : (if cond then propagateUpdateFrom F X r c v d else some Y) = some Bf) :
    (if cond then propagateUpdateFrom Fb X r c v d else some Y) = some Bf :=
  stepIf_mono (fun X r c v d Bf hp => propagate_fuel_le Fb F hF X r c v d Bf hp) h

/-- A successful propagation run never increases the lexicographic measure. -/
theorem propagate_measure_le :
    ∀ (fuel : ℕ) (B : Calc) (r c : ℤ) (v : Cost) (d : ℤ) (Bf : Calc),
      propagateUpdateFrom fuel B r c v d = some Bf →
      lexLE (measureOf Bf) (measureOf B) := by
  intro fuel
  induction fuel with
  | zero =>
    intro B r c v d Bf h
    exact Option.noConfusion h
  | succ fuel ih =>
    intro B r c v d Bf h
    rw [propagateUpdateFrom] at h
    cases hrow : (if 0 ≤ r then B.resolvedDistances[r.toNat]? else none) with
    | none =>
      rw [hrow] at h
      cases h
      exact lexLE_refl _
    | some row =>
      rw [hrow] at h
      dsimp only at h
      cases hslot : (if 0 ≤ d then row[d.toNat]? else none) with
      | none =>
        rw [hslot] at h
        cases h
        exact lexLE_refl _
      | some stored =>
        rw [hslot] at h
        dsimp only at h
        by_cases hlt : v < stored
        · rw [if_pos hlt] at h
          simp only [Option.bind_eq_some] at h
          obtain ⟨B1, h1, B2, h2, B3, h3, h4⟩ := h
          have hr0 : 0 ≤ r := by
            by_contra hc
            rw [if_neg hc] at hrow
            exact Option.noConfusion hrow
          have hd0 : 0 ≤ d := by
            by_contra hc
            rw [if_neg hc] at hslot
            exact Option.noConfusion hslot
          rw [if_pos hr0] at hrow
          rw [if_pos hd0] at hslot
          have hW : lexLE
              (measureOf { B with resolvedDistances := B.resolvedDistances.set r.toNat (row.set d.toNat v) })
              (measureOf B) :=
            lexLE_of_lexLT (measure_write_lt hrow hslot hlt)
          have hs1 : lexLE (measureOf B1)
              (measureOf { B with resolvedDistances := B.resolvedDistances.set r.toNat (row.set d.toNat v) }) := by
            revert h1
            split
            · intro h1
              exact ih _ _ _ _ _ _ h1
            · intro h1
              cases h1
              exact lexLE_refl _
          have hs2 : lexLE (measureOf B2) (measureOf B1) := by
            revert h2
            split
            · intro h2
              exact ih _ _ _ _ _ _ h2
            · intro h2
              cases h2
              exact lexLE_refl _
          have hs3 : lexLE (measureOf B3) (measureOf B2) := by
            revert h3
            split
            · intro h3
              exact ih _ _ _ _ _ _ h3
            · intro h3
              cases h3
              exact lexLE_refl _
          have hs4 : lexLE (measureOf Bf) (measureOf B3) := by
            revert h4
            split
            · intro h4
              exact ih _ _ _ _ _ _ h4
            · intro h4
              cases h4
              exact lexLE_refl _
          exact lexLE_trans hs4 (lexLE_trans hs3 (lexLE_trans hs2 (lexLE_trans hs1 hW)))
        · rw [if_neg hlt] at h
          cases h
          exact lexLE_refl _

/-- With an empty input sequence the heuristic reads the virtual row `-1`, so
it equals the match length. -/
theorem heuristic_empty_input {S : Calc} (h : S.inputSequence = []) :
    getHeuristicFinalCost S = (S.matchSequence.length : Cost) := by
  have h1 : ((S.inputSequence.length : ℕ) : ℤ) - 1 = -1 := by rw [h]; simp
  unfold getHeuristicFinalCost
  rw [h1]
  unfold getCostAt getCostAtW
  rw [if_pos (Or.inl (by omega : (-1:ℤ) < 0))]
  rw [if_pos (⟨rfl, by omega⟩ : (-1:ℤ) = -1 ∧ -1 ≤ (S.matchSequence.length : ℤ) - 1)]
  congr 1
  omega

/-- With an empty match sequence the heuristic reads the virtual column `-1`,
so it equals the input length. -/
theorem heuristic_empty_match {S : Calc} (h : S.matchSequence = []) :
    getHeuristicFinalCost S = (S.inputSequence.length : Cost) := by
  have h1 : ((S.matchSequence.length : ℕ) : ℤ) - 1 = -1 := by rw [h]; simp
  unfold getHeuristicFinalCost
  rw [h1]
  unfold getCostAt getCostAtW
  rw [if_pos (Or.inr (by omega : (-1:ℤ) < 0))]
  by_cases hm : S.inputSequence.length = 0
  · rw [if_pos (⟨by omega, by omega⟩ :
      ((S.inputSequence.length : ℤ) - 1) = -1 ∧ (-1:ℤ) ≤ -1)]
    rw [hm]
    simp
  · rw [if_neg (fun hc => hm (by omega))]
    rw [if_pos (⟨rfl, by omega⟩ :
      (-1:ℤ) = -1 ∧ -1 ≤ (S.inputSequence.length : ℤ) - 1)]
    congr 1
    omega

/-- `increaseMaxDistance` early-returns (bumping only the width) whenever one
sequence is empty. -/
theorem increase_empty (p : ℕ) {S : Calc}
    (h : S.inputSequence.length = 0 ∨ S.matchSequence.length = 0) :
    increaseMaxDistance p S = some { S with diagonalWidth := S.diagonalWidth + 1 } := by
  unfold increaseMaxDistance
  dsimp only
  rw [if_pos (by omega)]

/-- The final-cost loop on an empty input sequence widens until the band covers
the match length, then returns that length. -/
theorem getFinalCostAux_empty_input :
    ∀ (p k : ℕ) (S : Calc), S.inputSequence = [] →
      S.matchSequence.length ≤ S.diagonalWidth + k →
      getFinalCostAux p (k+1) S = some (S.matchSequence.length : Cost) := by
  intro p k
  induction k with
  | zero =>
    intro S hin hb
    rw [getFinalCostAux]
    rw [heuristic_empty_input hin]
    rw [if_pos (Nat.cast_le.mpr (by omega : S.matchSequence.length ≤ S.diagonalWidth))]
  | succ k ih =>
    intro S hin hb
    rw [getFinalCostAux]
    rw [heuristic_empty_input hin]
    by_cases hc : (S.matchSequence.length : Cost) ≤ (S.diagonalWidth : Cost)
    · rw [if_pos hc]
    · rw [if_neg hc]
      rw [increase_empty p (Or.inl (by rw [hin]; rfl))]
      rw [Option.some_bind]
      exact ih { S with diagonalWidth := S.diagonalWidth + 1 } hin (by dsimp only; omega)

/-- The final-cost loop on an empty match sequence widens until the band covers
the input length, then returns that length. -/
theorem getFinalCostAux_empty_match :
    ∀ (p k : ℕ) (S : Calc), S.matchSequence = [] →
      S.inputSequence.length ≤ S.diagonalWidth + k →
      getFinalCostAux p (k+1) S = some (S.inputSequence.length : Cost) := by
  intro p k
  induction k with
  | zero =>
    intro S hmt hb
    rw [getFinalCostAux]
    rw [heuristic_empty_match hmt]
    rw [if_pos (Nat.cast_le.mpr (by omega : S.inputSequence.length ≤ S.diagonalWidth))]
  | succ k ih =>
    intro S hmt hb
    rw [getFinalCostAux]
    rw [heuristic_empty_match hmt]
    by_cases hc : (S.inputSequence.length : Cost) ≤ (S.diagonalWidth : Cost)
    · rw [if_pos hc]
    · rw [if_neg hc]
      rw [increase_empty p (Or.inr (by rw [hmt]; rfl))]
      rw [Option.some_bind]
      exact ih { S with diagonalWidth := S.diagonalWidth + 1 } hmt (by dsimp only; omega)

/-- Totality of `propagateUpdateFrom`, by strong induction on the lexicographic
measure: from any state and start cell some fuel budget suffices. -/
theorem propagate_total_aux :
    ∀ (n m : ℕ) (B : Calc), topCount B.resolvedDistances = n →
      finSum B.resolvedDistances = m →
      ∀ (r c : ℤ) (v : Cost) (d : ℤ),
        ∃ (F : ℕ) (Bf : Calc), propagateUpdateFrom F B r c v d = some Bf := by
  intro n
  induction n using Nat.strong_induction_on with
  | _ n ihn =>
  intro m
  induction m using Nat.strong_induction_on with
  | _ m ihm =>
  intro B hn hm r c v d
  have IH : ∀ (X : Calc), lexLT (measureOf X) (n, m) →
      ∀ (r c : ℤ) (v : Cost) (d : ℤ),
        ∃ (F : ℕ) (Bf : Calc), propagateUpdateFrom F X r c v d = some Bf := by
    intro X hX r1 c1 v1 d1
    unfold lexLT at hX
    dsimp only [measureOf] at hX
    rcases hX with h | ⟨heq, h2⟩
    · exact ihn _ h _ X rfl rfl r1 c1 v1 d1
    · exact ihm _ h2 X heq rfl r1 c1 v1 d1
  cases hrow : (if 0 ≤ r then B.resolvedDistances[r.toNat]? else none) with
  | none =>
    refine ⟨Nat.succ 0, B, ?_⟩
    rw [propagateUpdateFrom, hrow]
  | some row =>
    cases hslot : (if 0 ≤ d then row[d.toNat]? else none) with
    | none =>
      refine ⟨Nat.succ 0, B, ?_⟩
      rw [propagateUpdateFrom, hrow]
      dsimp only
      rw [hslot]
    | some stored =>
      by_cases hvlt : v < stored
      · have hr0 : 0 ≤ r := by
          by_contra hc
          rw [if_neg hc] at hrow
          exact Option.noConfusion hrow
        have hd0 : 0 ≤ d := by
          by_contra hc
          rw [if_neg hc] at hslot
          exact Option.noConfusion hslot
        have hrowP := hrow
        rw [if_pos hr0] at hrowP
        have hslotP := hslot
        rw [if_pos hd0] at hslotP
        set Bw : Calc :=
          ({ B with resolvedDistances := B.resolvedDistances.set r.toNat (row.set d.toNat v) } : Calc)
          with hBw
        have hWlt : lexLT (measureOf Bw) (n, m) := by
          rw [← hn, ← hm]
          exact measure_write_lt hrowP hslotP hvlt
        obtain ⟨F1, B1, h1, hle1⟩ :
            ∃ (F1 : ℕ) (B1 : Calc),
              (if d < 2*((Bw.diagonalWidth:ℤ) - 1) ∧ c < (Bw.matchSequence.length : ℤ) - 1 then
                  propagateUpdateFrom F1 Bw r (c+1) (v+1) (d+1)
                else some Bw) = some B1 ∧ lexLE (measureOf B1) (measureOf Bw) := by
          by_cases hc : d < 2*((Bw.diagonalWidth:ℤ) - 1) ∧ c < (Bw.matchSequence.length : ℤ) - 1
          · obtain ⟨F, B1, hF⟩ := IH Bw hWlt r (c+1) (v+1) (d+1)
            exact ⟨F, B1, by rw [if_pos hc]; exact hF, propagate_measure_le _ _ _ _ _ _ _ hF⟩
          · exact ⟨1, Bw, by rw [if_neg hc], lexLE_refl _⟩
        have hlt1 : lexLT (measureOf B1) (n, m) := lexLT_of_lexLE_of_lexLT hle1 hWlt
        obtain ⟨F2, B2, h2, hle2⟩ :
            ∃ (F2 : ℕ) (B2 : Calc),
              (if 0 < d ∧ r < (Bw.inputSequence.length : ℤ) - 1 then
                  propagateUpdateFrom F2 B1 (r+1) c (v+1) (d-1)
                else some B1) = some B2 ∧ lexLE (measureOf B2) (measureOf B1) := by
          by_cases hc : 0 < d ∧ r < (Bw.inputSequence.length : ℤ) - 1
          · obtain ⟨F, B2, hF⟩ := IH B1 hlt1 (r+1) c (v+1) (d-1)
            exact ⟨F, B2, by rw [if_pos hc]; exact hF, propagate_measure_le _ _ _ _ _ _ _ hF⟩
          · exact ⟨1, B1, by rw [if_neg hc], lexLE_refl _⟩
        have hlt2 : lexLT (measureOf B2) (n, m) := lexLT_of_lexLE_of_lexLT hle2 hlt1
        obtain ⟨F3, B3, h3, hle3⟩ :
            ∃ (F3 : ℕ) (B3 : Calc),
              (if r < (Bw.inputSequence.length : ℤ) - 1 ∧ c < (Bw.matchSequence.length : ℤ) - 1 then
                  propagateUpdateFrom F3 B2 (r+1) (c+1)
                    (v + (if listGetZ Bw.inputSequence (r+1) = listGetZ Bw.matchSequence (c+1)
                          then 0 else 1)) d
                else some B2) = some B3 ∧ lexLE (measureOf B3) (measureOf B2) := by
          by_cases hc : r < (Bw.inputSequence.length : ℤ) - 1 ∧ c < (Bw.matchSequence.length : ℤ) - 1
          · obtain ⟨F, B3, hF⟩ := IH B2 hlt2 (r+1) (c+1)
              (v + (if listGetZ Bw.inputSequence (r+1) = listGetZ Bw.matchSequence (c+1)
                    then 0 else 1)) d
            exact ⟨F, B3, by rw [if_pos hc]; exact hF, propagate_measure_le _ _ _ _ _ _ _ hF⟩
          · exact ⟨1, B2, by rw [if_neg hc], lexLE_refl _⟩
        have hlt3 : lexLT (measureOf B3) (n, m) := lexLT_of_lexLE_of_lexLT hle3 hlt2
        obtain ⟨F4, B4, h4⟩ :
            ∃ (F4 : ℕ) (B4 : Calc),
              (if 0 < idxOfFrom Bw.inputSequence (listGetZ Bw.matchSequence (c+1)) (r+2).toNat ∧
                  0 < idxOfFrom Bw.matchSequence (listGetZ Bw.inputSequence (r+1)) (c+2).toNat then
                  propagateUpdateFrom F4 B3
                    (idxOfFrom Bw.inputSequence (listGetZ Bw.matchSequence (c+1)) (r+2).toNat)
                    (idxOfFrom Bw.matchSequence (listGetZ Bw.inputSequence (r+1)) (c+2).toNat)
                    (v + ((((idxOfFrom Bw.inputSequence (listGetZ Bw.matchSequence (c+1)) (r+2).toNat)
                              - r - 2).toNat + 1 +
                           ((idxOfFrom Bw.matchSequence (listGetZ Bw.inputSequence (r+1)) (c+2).toNat)
                              - c - 2).toNat : ℕ) : Cost))
                    ((Bw.diagonalWidth:ℤ) - 1 +
                      idxOfFrom Bw.matchSequence (listGetZ Bw.inputSequence (r+1)) (c+2).toNat -
                      idxOfFrom Bw.inputSequence (listGetZ Bw.matchSequence (c+1)) (r+2).toNat)
                else some B3) = some B4 := by
          by_cases hc : 0 < idxOfFrom Bw.inputSequence (listGetZ Bw.matchSequence (c+1)) (r+2).toNat ∧
              0 < idxOfFrom Bw.matchSequence (listGetZ Bw.inputSequence (r+1)) (c+2).toNat
          · obtain ⟨F, B4, hF⟩ := IH B3 hlt3
              (idxOfFrom Bw.inputSequence (listGetZ Bw.matchSequence (c+1)) (r+2).toNat)
              (idxOfFrom Bw.matchSequence (listGetZ Bw.inputSequence (r+1)) (c+2).toNat)
              (v + ((((idxOfFrom Bw.inputSequence (listGetZ Bw.matchSequence (c+1)) (r+2).toNat)
                        - r - 2).toNat + 1 +
                     ((idxOfFrom Bw.matchSequence (listGetZ Bw.inputSequence (r+1)) (c+2).toNat)
                        - c - 2).toNat : ℕ) : Cost))
              ((Bw.diagonalWidth:ℤ) - 1 +
                idxOfFrom Bw.matchSequence (listGetZ Bw.inputSequence (r+1)) (c+2).toNat -
                idxOfFrom Bw.inputSequence (listGetZ Bw.matchSequence (c+1)) (r+2).toNat)
            exact ⟨F, B4, by rw [if_pos hc]; exact hF⟩
          · exact ⟨1, B3, by rw [if_neg hc]⟩
        refine ⟨Nat.succ (F1.max (F2.max (F3.max F4))), B4, ?_⟩
        rw [propagateUpdateFrom, hrow]
        dsimp only
        rw [hslot]
        dsimp only
        rw [if_pos hvlt]
        simp only [Option.bind_eq_some]
        exact ⟨B1, stepIf_fuel_le (Nat.le_max_left _ _) h1,
               B2, stepIf_fuel_le (Nat.le_trans (Nat.le_max_left _ _) (Nat.le_max_right _ _)) h2,
               B3, stepIf_fuel_le (Nat.le_trans (Nat.le_trans (Nat.le_max_left _ _)
                      (Nat.le_max_right _ _)) (Nat.le_max_right _ _)) h3,
               stepIf_fuel_le (Nat.le_trans (Nat.le_trans (Nat.le_max_right _ _)
                      (Nat.le_max_right _ _)) (Nat.le_max_right _ _)) h4⟩
      · refine ⟨Nat.succ 0, B, ?_⟩
        rw [propagateUpdateFrom, hrow]
        dsimp only
        rw [hslot]
        dsimp only
        rw [if_neg hvlt]

/-! ### Row shapes along reachable histories -/

/-- `setCell` never changes a row's length. -/
theorem setCell_getD_length (rows : List (List Cost)) (r idx : ℕ) (v : Cost) (q : ℕ) :
    ((setCell rows r idx v).getD q []).length = (rows.getD q []).length := by
  by_cases h : q = r
  · subst h
    by_cases hr : q < rows.length
    · rw [setCell_getD_eq rows q idx v hr]
      simp
    · have hlen := setCell_length rows q idx v
      rw [List.getD_eq_getElem?_getD, List.getElem?_eq_none (by omega),
          List.getD_eq_getElem?_getD, List.getElem?_eq_none (by omega)]
  · rw [setCell_getD_ne rows r idx v q h]

/-- The row-fill loop of `addInputChar` changes no field shape. -/
theorem fillRowLoop_shape (r : ℕ) :
    ∀ (k cIdx : ℕ) (S : Calc),
      (fillRowLoop r cIdx k S).diagonalWidth = S.diagonalWidth ∧
      (fillRowLoop r cIdx k S).inputSequence = S.inputSequence ∧
      (fillRowLoop r cIdx k S).matchSequence = S.matchSequence ∧
      (fillRowLoop r cIdx k S).resolvedDistances.length = S.resolvedDistances.length ∧
      ∀ q, ((fillRowLoop r cIdx k S).resolvedDistances.getD q []).length =
        (S.resolvedDistances.getD q []).length := by
  intro k
  induction k with
  | zero =>
    intro cIdx S
    exact ⟨rfl, rfl, rfl, rfl, fun q => rfl⟩
  | succ k ih =>
    intro cIdx S
    rw [fillRowLoop]
    obtain ⟨h1, h2, h3, h4, h5⟩ := ih (cIdx+1) _
    exact ⟨h1, h2, h3, h4.trans (setCell_length _ _ _ _),
      fun q => (h5 q).trans (setCell_getD_length _ _ _ _ q)⟩

/-- The column-fill loop of `addMatchChar` changes no field shape. -/
theorem fillColLoop_shape (c : ℕ) :
    ∀ (k rIdx : ℕ) (S : Calc),
      (fillColLoop c rIdx k S).diagonalWidth = S.diagonalWidth ∧
      (fillColLoop c rIdx k S).inputSequence = S.inputSequence ∧
      (fillColLoop c rIdx k S).matchSequence = S.matchSequence ∧
      (fillColLoop c rIdx k S).resolvedDistances.length = S.resolvedDistances.length ∧
      ∀ q, ((fillColLoop c rIdx k S).resolvedDistances.getD q []).length =
        (S.resolvedDistances.getD q []).length := by
  intro k
  induction k with
  | zero =>
    intro rIdx S
    exact ⟨rfl, rfl, rfl, rfl, fun q => rfl⟩
  | succ k ih =>
    intro rIdx S
    rw [fillColLoop]
    obtain ⟨h1, h2, h3, h4, h5⟩ := ih (rIdx+1) _
    exact ⟨h1, h2, h3, h4.trans (setCell_length _ _ _ _),
      fun q => (h5 q).trans (setCell_getD_length _ _ _ _ q)⟩

/-- Shape effect of `addInputChar`: one fresh full row is appended, nothing
else changes shape. -/
theorem addInputChar_shape (S : Calc) (ch : Char) :
    (addInputChar S ch).diagonalWidth = S.diagonalWidth ∧
    (addInputChar S ch).inputSequence = S.inputSequence ++ [ch] ∧
    (addInputChar S ch).matchSequence = S.matchSequence ∧
    (addInputChar S ch).resolvedDistances.length = S.resolvedDistances.length + 1 ∧
    ∀ q, ((addInputChar S ch).resolvedDistances.getD q []).length =
      ((S.resolvedDistances ++ [List.replicate (2*S.diagonalWidth+1) (⊤:Cost)]).getD q []).length := by
  unfold addInputChar
  dsimp only
  split
  · exact ⟨rfl, rfl, rfl, by simp, fun q => rfl⟩
  · refine ⟨(fillRowLoop_shape _ _ _ _).1, (fillRowLoop_shape _ _ _ _).2.1,
      (fillRowLoop_shape _ _ _ _).2.2.1, ?_, ?_⟩
    · rw [(fillRowLoop_shape _ _ _ _).2.2.2.1]
      simp
    · intro q
      exact (fillRowLoop_shape _ _ _ _).2.2.2.2 q

/-- Shape effect of `addMatchChar`: only stored values change, no shape does. -/
theorem addMatchChar_shape (S : Calc) (ch : Char) :
    (addMatchChar S ch).diagonalWidth = S.diagonalWidth ∧
    (addMatchChar S ch).inputSequence = S.inputSequence ∧
    (addMatchChar S ch).matchSequence = S.matchSequence ++ [ch] ∧
    (addMatchChar S ch).resolvedDistances.length = S.resolvedDistances.length ∧
    ∀ q, ((addMatchChar S ch).resolvedDistances.getD q []).length =
      (S.resolvedDistances.getD q []).length := by
  unfold addMatchChar
  dsimp only
  split
  · exact ⟨rfl, rfl, rfl, rfl, fun q => rfl⟩
  · exact ⟨(fillColLoop_shape _ _ _ _).1, (fillColLoop_shape _ _ _ _).2.1,
      (fillColLoop_shape _ _ _ _).2.2.1, (fillColLoop_shape _ _ _ _).2.2.2.1,
      fun q => (fillColLoop_shape _ _ _ _).2.2.2.2 q⟩

/-- Snapshots reachable from a fresh calculation by the three mutators. -/
inductive Reachable : Calc → Prop where
  | base (w : ℕ) : Reachable (emptyCalc w)
  | inputStep {S : Calc} (c : Char) : Reachable S → Reachable (addInputChar S c)
  | matchStep {S : Calc} (c : Char) : Reachable S → Reachable (addMatchChar S c)
  | widenStep {S T : Calc} (fuel : ℕ) : Reachable S →
      increaseMaxDistance fuel S = some T → Reachable T

/-- Reachability restricted to histories whose widenings all happen with both
sequences nonempty (the early-return path of `increaseMaxDistance` is never
taken). -/
inductive ReachableND : Calc → Prop where
  | base (w : ℕ) : ReachableND (emptyCalc w)
  | inputStep {S : Calc} (c : Char) : ReachableND S → ReachableND (addInputChar S c)
  | matchStep {S : Calc} (c : Char) : ReachableND S → ReachableND (addMatchChar S c)
  | widenStep {S T : Calc} (fuel : ℕ) : ReachableND S → S.inputSequence ≠ [] →
      S.matchSequence ≠ [] → increaseMaxDistance fuel S = some T → ReachableND T

/-- Every reachable snapshot keeps one row per input character. -/
theorem reachable_rowCount {S : Calc} (h : Reachable S) :
    S.resolvedDistances.length = S.inputSequence.length := by
  induction h with
  | base w => rfl
  | inputStep c hT ih =>
    next T =>
    obtain ⟨h1, h2, h3, h4, h5⟩ := addInputChar_shape T c
    rw [h4, h2, ih]
    simp
  | matchStep c hT ih =>
    next T =>
    obtain ⟨h1, h2, h3, h4, h5⟩ := addMatchChar_shape T c
    rw [h4, h2]
    exact ih
  | widenStep fuel hU heq ih =>
    next U V =>
    obtain ⟨hw, hin, hmt, hdisj⟩ := increase_spec ih heq
    rw [hin]
    rcases hdisj with ⟨_, hsame⟩ | hwrel
    · rw [hsame, ih]
    · rw [hwrel.1, ih]

/-- Along nondegenerate histories every row holds exactly `2w+1` cells. -/
theorem reachableND_shape {S : Calc} (h : ReachableND S) :
    S.resolvedDistances.length = S.inputSequence.length ∧
    ∀ q, q < S.resolvedDistances.length →
      (S.resolvedDistances.getD q []).length = 2*S.diagonalWidth + 1 := by
  induction h with
  | base w => exact ⟨rfl, fun q hq => absurd hq (by simp [emptyCalc])⟩
  | inputStep c hT ih =>
    next T =>
    obtain ⟨h1, h2, h3, h4, h5⟩ := addInputChar_shape T c
    obtain ⟨ih1, ih2⟩ := ih
    constructor
    · rw [h4, h2, ih1]
      simp
    · intro q hq
      rw [h5 q, h1]
      rw [h4] at hq
      by_cases hlt : q < T.resolvedDistances.length
      · rw [getD_append_lt _ _ _ _ hlt]
        exact ih2 q hlt
      · have hq2 : q = T.resolvedDistances.length := by omega
        subst hq2
        rw [getD_append_self]
        simp
  | matchStep c hT ih =>
    next T =>
    obtain ⟨h1, h2, h3, h4, h5⟩ := addMatchChar_shape T c
    obtain ⟨ih1, ih2⟩ := ih
    constructor
    · rw [h4, h2]
      exact ih1
    · intro q hq
      rw [h5 q, h1]
      rw [h4] at hq
      exact ih2 q hq
  | widenStep fuel hU hin hmt heq ih =>
    next U V =>
    obtain ⟨ih1, ih2⟩ := ih
    obtain ⟨hw, hin2, hmt2, hdisj⟩ := increase_spec ih1 heq
    rcases hdisj with ⟨hdeg, _⟩ | hwrel
    · exfalso
      rcases hdeg with hdeg | hdeg
      · exact hin (List.length_eq_zero.mp (by omega))
      · exact hmt (List.length_eq_zero.mp (by omega))
    · obtain ⟨hlen, hrows⟩ := hwrel
      constructor
      · rw [hlen, hin2, ih1]
      · intro q hq
        rw [hlen] at hq
        have h2 := ((hrows q).1 hq).1
        rw [h2, ih2 q hq, hw]
        omega

/-! ### The claims -/

/-- C1: the sparsified `getFinalCost` does NOT agree with the baseline oracle
`getDamerauLevenshteinEditDistance` on every pair: for input "ab" against match
"ba" the baseline returns 2 (its `charLastPositionInStr[char] || -1` treats a
stored position 0 as absent and misses the adjacent transposition), while the
sparsified calculation returns 1, agreeing with the reference recurrence. -/
theorem claim_C1 :
    getDamerauLevenshteinEditDistance [Char.ofNat 97, Char.ofNat 98]
        [Char.ofNat 98, Char.ofNat 97] = ((2:ℕ) : Cost) ∧
    getFinalCostAux 20 10 (build [Char.ofNat 97, Char.ofNat 98]
        [Char.ofNat 98, Char.ofNat 97] 1) = some ((1:ℕ) : Cost) ∧
    dlRef [Char.ofNat 97, Char.ofNat 98] [Char.ofNat 98, Char.ofNat 97] = ((1:ℕ) : Cost) :=
  ⟨by decide, by decide, by decide⟩

/-- C2: the heuristic final cost of a snapshot built at any half-width never
underestimates the reference Damerau-Levenshtein distance. -/
theorem claim_C2 : ∀ (a b : List Char) (w : ℕ),
    dlRef a b ≤ getHeuristicFinalCost (build a b w) := by
  intro a b w
  rw [build_heuristic]
  exact dlRef_le_vRead a b w

/-- C4: widening only helps: the heuristic final cost is antitone in the build
half-width, and a single `increaseMaxDistance` call lowers every cell read
pointwise. -/
theorem claim_C4 :
    (∀ (a b : List Char) (w1 w2 : ℕ), w1 < w2 →
      getHeuristicFinalCost (build a b w2) ≤ getHeuristicFinalCost (build a b w1)) ∧
    (∀ (fuel : ℕ) (a b : List Char) (w : ℕ) (S2 : Calc),
      increaseMaxDistance fuel (build a b w) = some S2 →
      ∀ (i j : ℤ), getCostAt S2 i j ≤ getCostAt (build a b w) i j) := by
  constructor
  · intro a b w1 w2 h
    rw [build_heuristic, build_heuristic]
    exact vRead_anti a b (le_of_lt h) _ _
  · intro fuel a b w S2 h i j
    exact widen_pointwise_le h i j

/-- C6: the heuristic of an appended snapshot depends only on the two appended
sequences, not on the interleaving of the appends; in particular appending all
input characters then all match characters agrees with the opposite order. -/
theorem claim_C6 :
    (∀ (w : ℕ) (L1 L2 : List Op), opsInput L1 = opsInput L2 → opsMatch L1 = opsMatch L2 →
      getHeuristicFinalCost (buildOps w L1) = getHeuristicFinalCost (buildOps w L2)) ∧
    (∀ (a b : List Char) (w : ℕ),
      getHeuristicFinalCost (buildOps w (a.map Op.inp ++ b.map Op.mtc)) =
      getHeuristicFinalCost (buildOps w (b.map Op.mtc ++ a.map Op.inp))) := by
  have key : ∀ (w : ℕ) (L1 L2 : List Op), opsInput L1 = opsInput L2 →
      opsMatch L1 = opsMatch L2 →
      getHeuristicFinalCost (buildOps w L1) = getHeuristicFinalCost (buildOps w L2) := by
    intro w L1 L2 h1 h2
    rw [buildOps_heuristic, buildOps_heuristic, h1, h2]
  refine ⟨key, fun a b w => key w _ _ ?_ ?_⟩
  · rw [opsInput_append, opsInput_append, opsInput_map_inp, opsInput_map_mtc]
    simp
  · rw [opsMatch_append, opsMatch_append, opsMatch_map_inp, opsMatch_map_mtc]
    simp

/-- C7: `getCostAt` returns `c+1` on the virtual row (`r = -1`, `c ≥ -1`),
`r+1` on the virtual column (`c = -1`, `r ≥ -1`), the `⊤` sentinel below the
virtual border (`r < -1` or `c < -1`) and outside the band
(`|r - c| > diagonalWidth`), and otherwise the stored entry; consequently the
final cost of two empty sequences is `0` and of an empty sequence against a
sequence of length `n` is `n`, with no failure. -/
theorem claim_C7 :
    (∀ (S : Calc) (r c : ℤ),
      (r = -1 → -1 ≤ c → getCostAt S r c = (((c+1).toNat : ℕ) : Cost)) ∧
      (c = -1 → -1 ≤ r → getCostAt S r c = (((r+1).toNat : ℕ) : Cost)) ∧
      (r < -1 ∨ c < -1 → getCostAt S r c = ⊤) ∧
      (0 ≤ r → 0 ≤ c → (S.diagonalWidth : ℤ) < |r - c| → getCostAt S r c = ⊤) ∧
      (∀ (row : List Cost) (v : Cost), 0 ≤ r → 0 ≤ c →
        |r - c| ≤ (S.diagonalWidth : ℤ) →
        S.resolvedDistances[r.toNat]? = some row →
        row[(c - r + (S.diagonalWidth : ℤ)).toNat]? = some v →
        getCostAt S r c = v)) ∧
    (∀ (w p : ℕ), getFinalCostAux p 1 (build [] [] w) = some ((0:ℕ) : Cost)) ∧
    (∀ (b : List Char) (w p : ℕ),
      getFinalCostAux p (b.length + 1) (build [] b w) = some (b.length : Cost)) ∧
    (∀ (a : List Char) (w p : ℕ),
      getFinalCostAux p (a.length + 1) (build a [] w) = some (a.length : Cost)) := by
  refine ⟨?_, ?_, ?_, ?_⟩
  · intro S r c
    refine ⟨?_, ?_, ?_, ?_, ?_⟩
    · intro h1 h2
      subst h1
      unfold getCostAt getCostAtW
      rw [if_pos (Or.inl (by omega))]
      rw [if_pos ⟨rfl, h2⟩]
    · intro h1 h2
      subst h1
      unfold getCostAt getCostAtW
      rw [if_pos (Or.inr (by omega))]
      by_cases hr : r = -1
      · rw [if_pos ⟨hr, by omega⟩]
        subst hr
        rfl
      · rw [if_neg (fun hc => hr hc.1)]
        rw [if_pos ⟨rfl, h2⟩]
    · intro h
      unfold getCostAt getCostAtW
      rw [if_pos (by omega)]
      rw [if_neg (by omega)]
      rw [if_neg (by omega)]
    · intro h1 h2 h3
      rcases lt_abs.mp h3 with h | h
      · unfold getCostAt getCostAtW
        rw [if_neg (by omega)]
        rw [if_pos (by omega)]
      · unfold getCostAt getCostAtW
        rw [if_neg (by omega)]
        rw [if_pos (by omega)]
    · intro row v h1 h2 h3 hrow hslot
      have hb := abs_le.mp h3
      unfold getCostAt getCostAtW
      rw [if_neg (by omega)]
      rw [if_neg (by omega)]
      rw [hrow, Option.some_bind, hslot]
      rfl
  · intro w p
    obtain ⟨hin, hmt, hwd, hrest⟩ := build_good ([]) ([]) w
    have h := getFinalCostAux_empty_input p 0 (build [] [] w) hin (by rw [hmt, hwd]; simp)
    rw [hmt] at h
    exact h
  · intro b w p
    obtain ⟨hin, hmt, hwd, hrest⟩ := build_good ([]) b w
    have h := getFinalCostAux_empty_input p b.length (build [] b w) hin
      (by rw [hmt, hwd]; omega)
    rw [hmt] at h
    exact h
  · intro a w p
    obtain ⟨hin, hmt, hwd, hrest⟩ := build_good a ([]) w
    have h := getFinalCostAux_empty_match p a.length (build a [] w) hmt
      (by rw [hin, hwd]; omega)
    rw [hin] at h
    exact h

/-- C8: `propagateUpdateFrom` always terminates: every starting snapshot, cell
and value admit a fuel budget on which the propagation runs to completion, by
strict decrease of the lexicographic measure (sentinel count, finite sum). -/
theorem claim_C8 : ∀ (B : Calc) (r c : ℤ) (v : Cost) (d : ℤ),
    ∃ (F : ℕ) (Bf : Calc), propagateUpdateFrom F B r c v d = some Bf :=
  fun B r c v d => propagate_total_aux _ _ B rfl rfl r c v d

/-- C10 (amended): every reachable snapshot keeps `resolvedDistances.length =
inputSequence.length`; and along histories whose widenings all happen with both
sequences nonempty, every allocated row has length exactly
`2*diagonalWidth + 1`.  (The unconditional row-length claim fails: see the
counterexample, a widening taken while the match sequence is empty.) -/
theorem claim_C10 :
    (∀ S : Calc, Reachable S →
      S.resolvedDistances.length = S.inputSequence.length) ∧
    (∀ S : Calc, ReachableND S →
      S.resolvedDistances.length = S.inputSequence.length ∧
      ∀ q, q < S.resolvedDistances.length →
        (S.resolvedDistances.getD q []).length = 2*S.diagonalWidth + 1) :=
  ⟨fun _ h => reachable_rowCount h, fun _ h => reachableND_shape h⟩

/-- C10 counterexample: widening the snapshot holding input "a" and no match
characters early-returns after bumping the width to 2, leaving its one row at
length 3 instead of the claimed `2*2+1 = 5`. -/
theorem claim_C10_counterexample :
    ∃ S0 : Calc, Reachable S0 ∧
      0 < S0.resolvedDistances.length ∧
      ¬ ((S0.resolvedDistances.getD 0 []).length = 2*S0.diagonalWidth + 1) := by
  refine ⟨{ resolvedDistances := [[(⊤:Cost), ⊤, ⊤]], diagonalWidth := 2,
            inputSequence := [Char.ofNat 97], matchSequence := [] }, ?_, by decide, by decide⟩
  exact Reachable.widenStep 1
    (Reachable.inputStep (Char.ofNat 97) (Reachable.base 1)) (by decide)

end SparseDL
